import Mathlib

/-!
Verification of the package-manager dependency resolver
(`interview-prep/anthropic/06-package-manager`, stages 2-4).

The Python source is shallowly embedded: dictionaries become association
lists (`List (String × α)`) preserving insertion order, Python tuples of
version components become `List Part`, and operations that can raise a
`TypeError` (comparison of an `int` component with a `str` component) or
that recurse without a bound return `Option`, where `none` models a call
that does not return a value (a raised exception or exhausted fuel for
the depth-bounded recursions).
-/

namespace PkgMgr

/-- A component of Python's `_version_tuple` result: `int(part)` when the
part parses as an integer, otherwise the part string itself. -/
inductive Part where
  | int (i : Int)
  | str (s : String)
deriving DecidableEq, Repr

/-- Python whitespace accepted by `int()` around the digits. -/
def isPySpace (c : Char) : Bool :=
  c = ' ' || c = '\t' || c = '\n' || c = '\r' || c = '\x0b' || c = '\x0c'

/-- Strip leading and trailing whitespace from a character list. -/
def pyStrip (cs : List Char) : List Char :=
  ((cs.dropWhile isPySpace).reverse.dropWhile isPySpace).reverse

/-- Numeric value of a list of decimal digit characters. -/
def digitsToNat (cs : List Char) : Nat :=
  cs.foldl (fun a c => a * 10 + (c.toNat - 48)) 0

/-- Python `int(s)` for ASCII decimal strings: optional surrounding
whitespace, an optional sign, then one or more digits.  (Digit-group
underscores and non-ASCII digits accepted by CPython are not modelled;
no input considered here contains them.)  `none` models `ValueError`. -/
def pyInt? (s : String) : Option Int :=
  match pyStrip s.data with
  | '-' :: rest =>
    if rest ≠ [] && rest.all Char.isDigit then some (-(digitsToNat rest : Int)) else none
  | '+' :: rest =>
    if rest ≠ [] && rest.all Char.isDigit then some (digitsToNat rest : Int) else none
  | rest =>
    if rest ≠ [] && rest.all Char.isDigit then some (digitsToNat rest : Int) else none

/-- Python `s.split(".")` on the character list: single-character
separator, keeping empty groups, `[""]` for the empty string. -/
def splitDots : List Char → List (List Char)
  | [] => [[]]
  | c :: rest =>
    if c = '.' then [] :: splitDots rest
    else
      match splitDots rest with
      | [] => [[c]]
      | g :: gs => (c :: g) :: gs

/-- `PackageManager._version_tuple` (stage 3 and stage 4, identical code):
split on `.` and convert each part with `int`, keeping the part as a
string when `int` raises `ValueError`.  Note the code never raises: a
non-numeric component is kept, not rejected. -/
def version_tuple (version : String) : List Part :=
  (splitDots version.data).map fun part =>
    match pyInt? ⟨part⟩ with
    | some i => Part.int i
    | none => Part.str ⟨part⟩

/-- Python `==` on tuple components: total, `False` across types. -/
def pyEqPart : Part → Part → Bool
  | .int i, .int j => i == j
  | .str a, .str b => a == b
  | _, _ => false

/-- Python `<` on strings (lexicographic by code point, a strict prefix
ordering first), on the character lists. -/
def pyStrLtB : List Char → List Char → Bool
  | [], [] => false
  | [], _ :: _ => true
  | _ :: _, [] => false
  | c :: cs, d :: ds => if c = d then pyStrLtB cs ds else decide (c.toNat < d.toNat)

/-- Python `<` on two strings. -/
def pyStrLt (a b : String) : Bool :=
  pyStrLtB a.data b.data

/-- Python `<` on tuple components: `none` models the `TypeError` raised
when an `int` is compared with a `str`. -/
def pyLtPart? : Part → Part → Option Bool
  | .int i, .int j => some (decide (i < j))
  | .str a, .str b => some (pyStrLt a b)
  | _, _ => none

/-- Python ordered comparison of component tuples: scan for the first
index whose components are not `==`-equal, order by `<` there (which may
raise), otherwise order by length. -/
def pyCmpTuple? : List Part → List Part → Option Ordering
  | [], [] => some .eq
  | [], _ :: _ => some .lt
  | _ :: _, [] => some .gt
  | x :: xs, y :: ys =>
    if pyEqPart x y then pyCmpTuple? xs ys
    else
      match pyLtPart? x y with
      | none => none
      | some true => some .lt
      | some false => some .gt

/-- Python `==` on component tuples: total, componentwise. -/
def pyTupleEq : List Part → List Part → Bool
  | [], [] => true
  | x :: xs, y :: ys => pyEqPart x y && pyTupleEq xs ys
  | _, _ => false

/-- The regex `^(==|>=|<=|>|<|~=)?(.+)$` of `_matches_constraint`,
including its backtracking: an operator token is consumed only when at
least one character remains for the target; otherwise the whole string
is the target and the operator defaults to `==`.  `none` is a failed
match, which only happens on the empty string. -/
def parse_constraint (constraint : String) : Option (String × String) :=
  match constraint.data with
  | [] => none
  | [_] => some ("==", constraint)
  | c₁ :: c₂ :: rest =>
    if c₁ = '=' ∧ c₂ = '=' ∧ rest ≠ [] then some ("==", ⟨rest⟩)
    else if c₁ = '>' ∧ c₂ = '=' ∧ rest ≠ [] then some (">=", ⟨rest⟩)
    else if c₁ = '<' ∧ c₂ = '=' ∧ rest ≠ [] then some ("<=", ⟨rest⟩)
    else if c₁ = '>' then some (">", ⟨c₂ :: rest⟩)
    else if c₁ = '<' then some ("<", ⟨c₂ :: rest⟩)
    else if c₁ = '~' ∧ c₂ = '=' ∧ rest ≠ [] then some ("~=", ⟨rest⟩)
    else some ("==", constraint)

/-- `PackageManager._matches_constraint` (stage 3 and stage 4, identical
code).  A failed regex match returns `False`; `==` uses total tuple
equality; the ordered operators use tuple comparison and may raise
(`none`); `~=` additionally compares the leading components with `==`
after a non-raising, successful `>=`. -/
def matches_constraint (version constraint : String) : Option Bool :=
  match parse_constraint constraint with
  | none => some false
  | some (op, target) =>
    let v := version_tuple version
    let t := version_tuple target
    if op = "==" then some (pyTupleEq v t)
    else if op = ">=" then (pyCmpTuple? v t).map fun o => decide (o ≠ .lt)
    else if op = "<=" then (pyCmpTuple? v t).map fun o => decide (o ≠ .gt)
    else if op = ">" then (pyCmpTuple? v t).map fun o => decide (o = .gt)
    else if op = "<" then (pyCmpTuple? v t).map fun o => decide (o = .lt)
    else
      match pyCmpTuple? v t with
      | none => none
      | some .lt => some false
      | some _ => some (pyEqPart (v.headD (.str "")) (t.headD (.str "")))

/-- Lookup in a Python dict modelled as an insertion-ordered association
list: the value at the first (unique) occurrence of the key. -/
def dget {α : Type} (d : List (String × α)) (k : String) : Option α :=
  (d.find? (fun p => p.1 == k)).map (·.2)

/-- Python dict assignment `d[k] = v`: replace in place when the key
exists, append otherwise. -/
def dset {α : Type} : List (String × α) → String → α → List (String × α)
  | [], k, v => [(k, v)]
  | (k', v') :: rest, k, v =>
    if k' == k then (k, v) :: rest else (k', v') :: dset rest k v

/-- A `_registry` entry of stage 4: the version list as stored (the code
sorts it ascending by `_version_tuple` at registration) and the
per-version dependency lists.  A dependency constraint is `none` when
the caller registered the edge with Python `None` ("no constraint"). -/
structure RegEntry where
  versions : List String
  dependencies : List (String × List (String × Option String))
deriving DecidableEq, Repr

/-- The stage-4 `_registry` dict. -/
abbrev Registry := List (String × RegEntry)

/-- The stage-4 `_packages` dict (name → installed version). -/
abbrev Packages := List (String × String)

/-- The transient `requirements` dict of `install`: package name → list
of `(requirer, constraint)` rows. -/
abbrev Req := List (String × List (String × String))

/-- The stage-4 `Conflict` dataclass. -/
structure Conflict where
  package : String
  required_by : List (String × String)
deriving DecidableEq, Repr

/-- Rows already collected for a package: `requirements.get(name, [])`. -/
def rowsOf (req : Req) (name : String) : List (String × String) :=
  (dget req name).getD []

/-- The memoization test of `_collect_requirements`:
`any(c == dep_constraint for _, c in existing)`.  Note the requirer is
not part of the key, and a `None` edge constraint never equals a
recorded row (rows hold strings). -/
def memoHit (req : Req) (depName : String) (depConstraint : Option String) : Bool :=
  match depConstraint with
  | some c => (rowsOf req depName).any (fun row => row.2 == c)
  | none => false

/-- Python `if constraint:` — `None` and the empty string are falsy. -/
def truthy : Option String → Bool
  | some c => !(c == "")
  | none => false

/-- `if name not in requirements: requirements[name] = []` — ensure the
key exists (a fresh dict key is appended at the end). -/
def ensureKey (req : Req) (name : String) : Req :=
  if (dget req name).isSome then req else req ++ [(name, [])]

/-- The bookkeeping prefix of `_collect_requirements`: ensure the key,
then `if constraint: requirements[name].append((requirer, constraint))`
(`None` and the empty string are falsy and record nothing). -/
def recordRow (req : Req) (name : String) (constraint : Option String)
    (requirer : String) : Req :=
  match constraint with
  | some c =>
    if c == "" then ensureKey req name
    else dset (ensureKey req name) name (rowsOf (ensureKey req name) name ++ [(requirer, c)])
  | none => ensureKey req name

/-- The Python list comprehension
`[v for v in versions if matches(v)]`: evaluates the predicate on every
element in order, propagating a raised exception (`none`). -/
def pyFilterM (p : String → Option Bool) : List String → Option (List String)
  | [] => some []
  | v :: rest => do
    let b ← p v
    let r ← pyFilterM p rest
    pure (if b then v :: r else r)

/-- `PackageManager._find_version` (stage 4): best matching version.
Outer `none` models a raised exception; inner `none` is Python `None`
(unknown package, empty version list, or nothing matches). -/
def find_version (reg : Registry) (name : String) (constraint : Option String) :
    Option (Option String) :=
  match dget reg name with
  | none => some none
  | some entry =>
    if entry.versions.isEmpty then some none
    else
      match constraint with
      | none => some entry.versions.getLast?
      | some c =>
        (pyFilterM (fun v => matches_constraint v c) entry.versions).map List.getLast?

/-- Dependency list of a registry package at a version:
`self._registry[name]["dependencies"].get(version, [])`. -/
def depsAt (entry : RegEntry) (version : String) : List (String × Option String) :=
  (dget entry.dependencies version).getD []

/-- The `for dep_name, dep_constraint in deps:` loop of
`_collect_requirements`: skip a dependency whose exact constraint text
is already recorded for it, recurse (`step`) otherwise. -/
def collectDeps (step : String → Option String → Req → Option Req) :
    List (String × Option String) → Req → Option Req
  | [], req => some req
  | (d, dc) :: rest, req =>
    match (if memoHit req d dc then some req else step d dc req) with
    | none => none
    | some req' => collectDeps step rest req'

/-- `PackageManager._collect_requirements` (stage 4), with an explicit
recursion-depth bound: `none` models a call that does not return (fuel
exhausted — the Python recursion is unbounded — or a raised
`TypeError`).  Bookkeeping mirrors the source: ensure the key exists,
record the row when the constraint is truthy, stop on unknown packages,
walk the dependency list of the best version for this single constraint. -/
def collectFuel (reg : Registry) : Nat → String → Option String → Req → String → Option Req
  | 0, _, _, _, _ => none
  | fuel + 1, name, constraint, req, requirer =>
    let req2 := recordRow req name constraint requirer
    match dget reg name with
    | none => some req2
    | some entry =>
      match find_version reg name constraint with
      | none => none
      | some none => some req2
      | some (some version) =>
        collectDeps (fun d dc r => collectFuel reg fuel d dc r name)
          (depsAt entry version) req2

/-- `all(self._matches_constraint(version, c) for c in constraints)`:
short-circuiting, propagating a raised exception. -/
def satAll? (version : String) : List String → Option Bool
  | [] => some true
  | c :: rest =>
    match matches_constraint version c with
    | none => none
    | some false => some false
    | some true => satAll? version rest

/-- The `for version in reversed(versions):` search of `install`: the
first version (given in reversed order) satisfying every constraint. -/
def findCompatible (versionsRev : List String) (constraints : List String) :
    Option (Option String) :=
  match versionsRev with
  | [] => some none
  | v :: rest =>
    match satAll? v constraints with
    | none => none
    | some true => some (some v)
    | some false => findCompatible rest constraints

/-- The conflict-detection loop of `install` (stage 4, lines 58-76): one
pass over the collected requirements, appending a `Conflict` for every
package that is unknown or has no version satisfying all its collected
constraints, and recording a resolved version for every other package.
The loop continues past failures. -/
def selectVersions (reg : Registry) :
    Req → List Conflict → Packages → Option (List Conflict × Packages)
  | [], conflicts, resolved => some (conflicts, resolved)
  | (pkg, reqs) :: rest, conflicts, resolved =>
    match dget reg pkg with
    | none => selectVersions reg rest (conflicts ++ [⟨pkg, reqs⟩]) resolved
    | some entry =>
      match findCompatible entry.versions.reverse (reqs.map (·.2)) with
      | none => none
      | some none => selectVersions reg rest (conflicts ++ [⟨pkg, reqs⟩]) resolved
      | some (some version) => selectVersions reg rest conflicts (dset resolved pkg version)

/-- The `for dep_name, _ in deps:` loop of `_install_ordered`: install
each dependency first (`step`), returning `False` at the first failure. -/
def installDeps
    (step : String → List String → Packages → List String →
      Option (Bool × List String × Packages × List String)) :
    List (String × Option String) → List String → Packages → List String →
    Option (Bool × List String × Packages × List String)
  | [], installed, packages, visiting => some (true, installed, packages, visiting)
  | (d, _) :: rest, installed, packages, visiting =>
    match step d installed packages visiting with
    | none => none
    | some (false, i, p, vis) => some (false, i, p, vis)
    | some (true, i, p, vis) => installDeps step rest i p vis

/-- `PackageManager._install_ordered` (stage 4): install in dependency
order using the resolved versions, threading the `installed` list, the
`_packages` dict and the shared `visiting` set, which the Python code
mutates in place.  `none` models exhausted fuel (the Python recursion
always terminates; large enough fuel reproduces it). -/
def installOrderedFuel (reg : Registry) (resolved : Packages) :
    Nat → String → List String → Packages → List String →
    Option (Bool × List String × Packages × List String)
  | 0, _, _, _, _ => none
  | fuel + 1, name, installed, packages, visiting =>
    if (dget packages name).isSome then some (true, installed, packages, visiting)
    else if name ∈ visiting then some (true, installed, packages, visiting)
    else if (dget reg name).isNone then some (false, installed, packages, visiting)
    else
      let visiting' := visiting ++ [name]
      match dget resolved name with
      | none => some (false, installed, packages, visiting')
      | some version =>
        match dget reg name with
        | none => some (false, installed, packages, visiting')
        | some entry =>
          match installDeps (fun d i p vis => installOrderedFuel reg resolved fuel d i p vis)
              (depsAt entry version) installed packages visiting' with
          | none => none
          | some (false, i, p, vis) => some (false, i, p, vis)
          | some (true, i, p, vis) =>
            some (true, i ++ [name ++ "==" ++ version], dset p name version, vis)

/-- The result of stage-4 `install`, together with the `_packages` state
after the call (the only mutable state the call leaves behind that later
calls read; `_resolved_versions` is overwritten before every use). -/
structure InstallResult where
  success : Bool
  installed : List String
  conflicts : List Conflict
  packages : Packages
deriving DecidableEq, Repr

/-- `PackageManager.install` (stage 4).  The `resolve_conflicts` flag is
omitted: both of its branches return the same value.  `none` models a
call that does not return (unbounded recursion in
`_collect_requirements`, or a raised `TypeError`). -/
def install (reg : Registry) (packages : Packages) (name : String)
    (constraint : Option String) (fuelC fuelI : Nat) : Option InstallResult :=
  if (dget reg name).isNone then some ⟨false, [], [], packages⟩
  else
    match collectFuel reg fuelC name constraint [] "root" with
    | none => none
    | some req =>
      match selectVersions reg req [] [] with
      | none => none
      | some (conflicts, resolved) =>
        if conflicts.isEmpty then
          match installOrderedFuel reg resolved fuelI name [] packages [] with
          | none => none
          | some (succ, installed, packages', _) => some ⟨succ, installed, [], packages'⟩
        else some ⟨false, [], conflicts, packages⟩

/-- Every component of the tuple is an integer (the well-formed case;
comparing a tuple with a string component against a numeric one raises
`TypeError` in the source). -/
def allInt (t : List Part) : Bool :=
  t.all fun p => match p with | .int _ => true | .str _ => false

/-- The version string parses to an all-integer tuple. -/
def numericVer (s : String) : Bool :=
  allInt (version_tuple s)

/-- The constraint parses and its target version is all-integer, so
matching it against a numeric version cannot raise. -/
def constrOk (c : String) : Bool :=
  match parse_constraint c with
  | some (_, t) => allInt (version_tuple t)
  | none => false

/-- Boolean `≤` induced by Python tuple comparison (undefined
comparisons count as `false`). -/
def tupLe (a b : List Part) : Bool :=
  match pyCmpTuple? a b with
  | some .lt => true
  | some .eq => true
  | _ => false

/-- The version satisfies every constraint row collected for a package
(evaluating to Python `True`, without raising). -/
def SatRows (v : String) (rows : List (String × String)) : Prop :=
  ∀ r ∈ rows, matches_constraint v r.2 = some true

/-- A version list as `register_package` stores it: ascending by
`_version_tuple`. -/
def VersionsSorted (vs : List String) : Prop :=
  vs.Pairwise fun x y => tupLe (version_tuple x) (version_tuple y) = true

instance (vs : List String) : Decidable (VersionsSorted vs) := by
  unfold VersionsSorted
  infer_instance

/-- Registry well-formedness used by the general theorems: every stored
version list is ascending and numeric.  `register_package` sorts at
registration, and non-numeric versions make its `sorted` call raise. -/
def RegSorted (reg : Registry) : Prop :=
  ∀ p ∈ reg, VersionsSorted p.2.versions ∧ p.2.versions.all numericVer = true

instance (reg : Registry) : Decidable (RegSorted reg) := by
  unfold RegSorted
  infer_instance

/-- Every collected row of the requirement map carries a constraint that
can be matched against numeric versions without raising. -/
def ReqOk (req : Req) : Prop :=
  ∀ e ∈ req, ∀ r ∈ e.2, constrOk r.2 = true

/-- A dependency edge carries a non-empty constraint string with a
numeric target (no Python `None` and no `""`). -/
def edgeOk (e : String × Option String) : Prop :=
  match e.2 with
  | some c => c ≠ "" ∧ constrOk c = true
  | none => False

instance (e : String × Option String) : Decidable (edgeOk e) := by
  rcases e with ⟨d, _ | c⟩
  · exact isFalse (fun h => h)
  · exact inferInstanceAs (Decidable (c ≠ "" ∧ constrOk c = true))

/-- Every dependency edge of the registry carries a non-empty constraint
string with a numeric target. -/
def EdgesOk (reg : Registry) : Prop :=
  ∀ p ∈ reg, ∀ d ∈ p.2.dependencies, ∀ e ∈ d.2, edgeOk e

instance (reg : Registry) : Decidable (EdgesOk reg) := by
  unfold EdgesOk
  infer_instance

/-- The root constraint is absent, empty, or well-formed numeric. -/
def RootOk : Option String → Prop
  | none => True
  | some c => c = "" ∨ constrOk c = true

instance (c₀ : Option String) : Decidable (RootOk c₀) :=
  match c₀ with
  | none => isTrue trivial
  | some c => inferInstanceAs (Decidable (c = "" ∨ constrOk c = true))

/-- The root constraint is absent or non-empty well-formed numeric (the
empty string is falsy but still steers `_find_version` into an empty
match, cutting the walk short). -/
def RootTruthy : Option String → Prop
  | none => True
  | some c => c ≠ "" ∧ constrOk c = true

instance (c₀ : Option String) : Decidable (RootTruthy c₀) :=
  match c₀ with
  | none => isTrue trivial
  | some c => inferInstanceAs (Decidable (c ≠ "" ∧ constrOk c = true))

/-- Head component of a tuple as an integer (used on non-empty
all-integer tuples, where the default is never taken). -/
def headInt (t : List Part) : Int :=
  match t.head? with
  | some (.int i) => i
  | _ => 0

/-- All (package, constraint-text) pairs that a collection walk over
`reg` rooted with constraint `c₀` at `root` can ever record. -/
def pairUniverse (reg : Registry) (root : String) (c₀ : Option String) :
    List (String × String) :=
  (reg.flatMap fun p => p.2.dependencies.flatMap fun d =>
    d.2.filterMap fun e =>
      match e.2 with
      | some c => if c = "" then none else some (e.1, c)
      | none => none) ++
  (match c₀ with
   | some c => if c = "" then [] else [(root, c)]
   | none => [])

/-- The constraint texts recorded for one package. -/
def textsOf (req : Req) (name : String) : List String :=
  (rowsOf req name).map (·.2)

/-- All (package, constraint-text) pairs recorded in a requirement map. -/
def flatPairs (req : Req) : List (String × String) :=
  req.flatMap fun e => e.2.map fun r => (e.1, r.2)

/-- The number of (package, constraint-text) pairs recorded. -/
def pairs (req : Req) : Nat :=
  (flatPairs req).length

/-- The invariant of the collection walk: keys are unique, the texts
recorded for each package are distinct (the memoization test prevents
duplicates), and every recorded pair comes from the universe. -/
def ReqInv (U : List (String × String)) (req : Req) : Prop :=
  (req.map (·.1)).Nodup ∧
  (∀ e ∈ req, ((e.2.map (·.2)) : List String).Nodup) ∧
  flatPairs req ⊆ U

/-- Every truthy dependency edge of the registry is in the universe. -/
def EdgesInUniverse (reg : Registry) (U : List (String × String)) : Prop :=
  ∀ p ∈ reg, ∀ d ∈ p.2.dependencies, ∀ e ∈ d.2, ∀ t, e.2 = some t → t ≠ "" → (e.1, t) ∈ U

/-- No two registered versions of a package share a component tuple:
the stored version list is strictly ascending.  Lists produced by
`register_package` from distinct canonical version strings satisfy
this. -/
def VersionsStrict (vs : List String) : Prop :=
  vs.Pairwise fun x y => tupLe (version_tuple y) (version_tuple x) = false

instance (vs : List String) : Decidable (VersionsStrict vs) := by
  unfold VersionsStrict
  infer_instance

/-- Every stored version list is strictly ascending by component tuple. -/
def RegStrict (reg : Registry) : Prop :=
  ∀ p ∈ reg, VersionsStrict p.2.versions

instance (reg : Registry) : Decidable (RegStrict reg) := by
  unfold RegStrict
  infer_instance

/-- The second requirement map extends the first: every key and every
recorded constraint text of the first is present in the second (the
collection walk only appends to the bookkeeping). -/
def ReqMono (req req' : Req) : Prop :=
  (∀ pkg, (dget req pkg).isSome = true → (dget req' pkg).isSome = true) ∧
  (∀ pkg t, t ∈ textsOf req pkg → t ∈ textsOf req' pkg)

/-- The dependency edges of one registry version have been walked into
the requirement map: every truthy edge constraint is recorded for its
target package. -/
def DepsDone (req : Req) (entry : RegEntry) (v : String) : Prop :=
  ∀ e ∈ depsAt entry v, ∀ t, e.2 = some t → t ≠ "" → t ∈ textsOf req e.1

/-- Every key of the requirement map other than the root carries at
least one recorded constraint text (keys other than the root are only
created by truthy dependency edges). -/
def KeysTexts (root : String) (req : Req) : Prop :=
  ∀ pkg, (dget req pkg).isSome = true → pkg = root ∨ textsOf req pkg ≠ []

/-- Number of registered package names not yet in the `visiting` set:
the decreasing measure of `_install_ordered`. -/
def visMeasure (reg : Registry) (vis : List String) : Nat :=
  ((reg.map (·.1)).filter (fun x => decide (x ∉ vis))).length

/-- The model does not return a value for any recursion bound: the
Python call never returns (it recurses without bound). -/
def installDiverges (reg : Registry) (name : String) : Prop :=
  ∀ fC fI : Nat, install reg [] name none fC fI = none

/-- Python's `<` on `(name, version)` pairs (tuple comparison on two
strings), as used by `sorted(self._packages.items())`. -/
def pyPairLe (a b : String × String) : Bool :=
  pyStrLt a.1 b.1 || (a.1 == b.1 && !(pyStrLt b.2 a.2))

/-- One insertion step of an ascending sort of `(name, version)` pairs. -/
def insertPair (x : String × String) : List (String × String) → List (String × String)
  | [] => [x]
  | y :: ys => if pyPairLe x y then x :: y :: ys else y :: insertPair x ys

/-- Python `sorted` on `(name, version)` pairs (insertion sort; with the
unique keys of a dict the result is the same list Python produces). -/
def pySortPairs (l : List (String × String)) : List (String × String) :=
  l.foldr insertPair []

/-- `PackageManager.generate_lockfile` (stage 4):
`dict(sorted(self._packages.items()))`. -/
def generate_lockfile (packages : Packages) : Packages :=
  pySortPairs packages

/-- `PackageManager.install_from_lockfile` (stage 4): assign each entry
whose name is registered, silently skipping the rest; always `True`. -/
def install_from_lockfile (reg : Registry) (packages : Packages) (lockfile : Packages) :
    Bool × Packages :=
  (true, lockfile.foldl (fun ps e => if (dget reg e.1).isSome then dset ps e.1 e.2 else ps) packages)

namespace Stage2

/-- The state of the stage-2 `PackageManager`: the `_packages` dict
(name → installed version, insertion-ordered) and the `_dependencies`
registry dict (name → dependency names). -/
structure S2State where
  packages : List (String × String)
  dependencies : List (String × List String)
deriving DecidableEq, Repr

/-- One insertion step of an ascending sort of strings. -/
def insertStr (x : String) : List String → List String
  | [] => [x]
  | y :: ys => if !(pyStrLt y x) then x :: y :: ys else y :: insertStr x ys

/-- Python `sorted` on a list of strings. -/
def pySortStr (l : List String) : List String :=
  l.foldr insertStr []

/-- `PackageManager.get_dependents` (stage 2): the installed packages
whose registered dependency list contains `name`, sorted. -/
def get_dependents (s : S2State) (name : String) : List String :=
  pySortStr (s.packages.filterMap fun p =>
    if ((dget s.dependencies p.1).getD []).contains name then some p.1 else none)

/-- `PackageManager.uninstall` (stage 2): refuse when not installed;
refuse naming the first installed package (in dict order) whose
dependency list contains `name`; otherwise delete the entry. -/
def uninstall (s : S2State) (name : String) : (Bool × Option String) × S2State :=
  if (dget s.packages name).isNone then ((false, some "Package not installed"), s)
  else
    match s.packages.find? (fun p => ((dget s.dependencies p.1).getD []).contains name) with
    | some p =>
      ((false, some ("Cannot uninstall: " ++ p.1 ++ " depends on " ++ name)), s)
    | none => ((true, none), ⟨s.packages.eraseP (fun p => p.1 == name), s.dependencies⟩)

end Stage2

/-- The diamond registry of §8 of the spec: `base` has three versions,
`pkg1` needs `base >= 1.0.0`, `pkg2` needs `base <= 1.5.0`, `app`
depends on both with no constraint. -/
def diamondReg : Registry :=
  [ ("base", ⟨["1.0.0", "1.5.0", "2.0.0"], []⟩),
    ("pkg1", ⟨["1.0.0"], [("1.0.0", [("base", some ">=1.0.0")])]⟩),
    ("pkg2", ⟨["1.0.0"], [("1.0.0", [("base", some "<=1.5.0")])]⟩),
    ("app", ⟨["1.0.0"], [("1.0.0", [("pkg1", none), ("pkg2", none)])]⟩) ]

/-- Registry in which the same constraint text on `base` arrives from
two different requirers (`pkg1` and `pkg2`) and is unsatisfiable. -/
def dupConstraintReg : Registry :=
  [ ("base", ⟨["1.0.0"], []⟩),
    ("pkg1", ⟨["1.0.0"], [("1.0.0", [("base", some ">=2.0.0")])]⟩),
    ("pkg2", ⟨["1.0.0"], [("1.0.0", [("base", some ">=2.0.0")])]⟩),
    ("app", ⟨["1.0.0"], [("1.0.0", [("pkg1", none), ("pkg2", none)])]⟩) ]

/-- Registry on which stage-4 `install` fails after a partial install:
`app` depends on `good` and then on `d` through an empty-string (falsy)
constraint, so `d`'s own dependency `x` is never collected; the ordered
install installs `good`, then fails on `x` (no resolved version). -/
def partialReg : Registry :=
  [ ("good", ⟨["1.0.0"], []⟩),
    ("x", ⟨["1.0.0"], []⟩),
    ("d", ⟨["1.0.0"], [("1.0.0", [("x", some ">=1.0.0")])]⟩),
    ("app", ⟨["1.0.0"], [("1.0.0", [("good", some ">=1.0.0"), ("d", some "")])]⟩) ]

/-- The cyclic registry with no constraint on either edge: `a` depends
on `b` and `b` depends on `a`, both registered with Python `None`. -/
def cycleNoneReg : Registry :=
  [ ("a", ⟨["1.0.0"], [("1.0.0", [("b", none)])]⟩),
    ("b", ⟨["1.0.0"], [("1.0.0", [("a", none)])]⟩) ]

/-- The cyclic registry of §8 of the spec with satisfiable constraints
on both edges. -/
def cycleReg : Registry :=
  [ ("a", ⟨["1.0.0"], [("1.0.0", [("b", some ">=1.0.0")])]⟩),
    ("b", ⟨["1.0.0"], [("1.0.0", [("a", some ">=1.0.0")])]⟩) ]

/-- One registered package with no dependencies, for the repeated-call
counterexample. -/
def soloReg : Registry := [("solo", ⟨["1.0.0"], []⟩)]

/-! ### Dictionary (association list) lemmas -/

theorem dget_cons {α : Type} (a : String × α) (rest : List (String × α)) (k : String) :
    dget (a :: rest) k = if a.1 == k then some a.2 else dget rest k := by
  by_cases h : a.1 == k <;> simp [dget, List.find?, h]

theorem dset_cons {α : Type} (a : String × α) (rest : List (String × α)) (k : String) (v : α) :
    dset (a :: rest) k v =
      if a.1 == k then (k, v) :: rest else a :: dset rest k v := by
  cases a
  rfl

theorem dget_dset_self {α : Type} (d : List (String × α)) (k : String) (v : α) :
    dget (dset d k v) k = some v := by
  induction d with
  | nil => simp [dset, dget, List.find?]
  | cons a rest ih =>
    rw [dset_cons]
    by_cases h : a.1 == k
    · simp [h, dget_cons]
    · rw [if_neg h, dget_cons, if_neg h]
      exact ih

theorem dget_dset_ne {α : Type} (d : List (String × α)) (k k' : String) (v : α)
    (h : k' ≠ k) : dget (dset d k v) k' = dget d k' := by
  have hkk : (k == k') = false := by simpa [beq_iff_eq] using fun e => h e.symm
  induction d with
  | nil => simp [dset, dget_cons, hkk, dget]
  | cons a rest ih =>
    rw [dset_cons]
    by_cases ha : a.1 == k
    · have ha' : a.1 = k := by simpa [beq_iff_eq] using ha
      rw [if_pos ha, dget_cons, dget_cons, if_neg (by simp [hkk]), ha', if_neg (by simp [hkk])]
    · rw [if_neg ha, dget_cons, dget_cons, ih]

theorem dget_none_iff {α : Type} (d : List (String × α)) (k : String) :
    dget d k = none ↔ k ∉ d.map (·.1) := by
  induction d with
  | nil => simp [dget]
  | cons a rest ih =>
    rw [dget_cons]
    by_cases h : a.1 == k
    · have h' : a.1 = k := by simpa [beq_iff_eq] using h
      simp [h, h']
    · have h' : ¬(a.1 = k) := by simpa [beq_iff_eq] using h
      rw [if_neg h, ih]
      simp only [List.map_cons, List.mem_cons, not_or]
      exact ⟨fun hk => ⟨fun e => h' e.symm, hk⟩, fun hk => hk.2⟩

theorem dget_isSome_iff {α : Type} (d : List (String × α)) (k : String) :
    (dget d k).isSome = true ↔ k ∈ d.map (·.1) := by
  rw [← Decidable.not_iff_not, ← dget_none_iff]
  cases dget d k <;> simp

theorem dget_eq_some_of_mem {α : Type} (d : List (String × α)) (k : String) (v : α)
    (hnd : (d.map (·.1)).Nodup) (hmem : (k, v) ∈ d) : dget d k = some v := by
  induction d with
  | nil => simp at hmem
  | cons a rest ih =>
    simp only [List.map_cons, List.nodup_cons] at hnd
    rw [dget_cons]
    rcases List.mem_cons.mp hmem with h | h
    · rw [← h]
      simp
    · have hk : k ∈ rest.map (·.1) := List.mem_map.mpr ⟨(k, v), h, rfl⟩
      have hne : a.1 ≠ k := fun e => hnd.1 (e ▸ hk)
      rw [if_neg (by simpa using hne)]
      exact ih hnd.2 h

theorem mem_of_dget_eq_some {α : Type} {d : List (String × α)} {k : String} {v : α}
    (h : dget d k = some v) : (k, v) ∈ d := by
  induction d with
  | nil => simp [dget] at h
  | cons a rest ih =>
    obtain ⟨a1, a2⟩ := a
    by_cases ha : a1 == k
    · have ha' : a1 = k := by simpa [beq_iff_eq] using ha
      rw [dget_cons, if_pos ha] at h
      simp only at h
      cases h
      subst ha'
      exact List.mem_cons_self _ _
    · rw [dget_cons, if_neg ha] at h
      exact .tail _ (ih h)

/-! ### Python tuple-order lemmas -/

theorem pyEqPart_iff (x y : Part) : pyEqPart x y = true ↔ x = y := by
  cases x <;> cases y <;> simp [pyEqPart]

theorem pyEqPart_self (x : Part) : pyEqPart x x = true := (pyEqPart_iff x x).mpr rfl

theorem char_eq_of_toNat {c d : Char} (h : c.toNat = d.toNat) : c = d := by
  apply Char.ext
  have : c.val.toNat = d.val.toNat := h
  exact UInt32.toNat.inj this

theorem pyStrLtB_trans : ∀ {a b c : List Char},
    pyStrLtB a b = true → pyStrLtB b c = true → pyStrLtB a c = true := by
  intro a
  induction a with
  | nil =>
    intro b c h₁ h₂
    cases b with
    | nil => simp [pyStrLtB] at h₁
    | cons y ys =>
      cases c with
      | nil => simp [pyStrLtB] at h₂
      | cons z zs => simp [pyStrLtB]
  | cons x xs ih =>
    intro b c h₁ h₂
    cases b with
    | nil => simp [pyStrLtB] at h₁
    | cons y ys =>
      cases c with
      | nil => simp [pyStrLtB] at h₂
      | cons z zs =>
        rw [pyStrLtB] at h₁ h₂ ⊢
        by_cases hxy : x = y
        · subst hxy
          rw [if_pos rfl] at h₁
          by_cases hyz : x = z
          · subst hyz
            rw [if_pos rfl] at h₂
            rw [if_pos rfl]
            exact ih h₁ h₂
          · rw [if_neg hyz] at h₂
            rw [if_neg hyz]
            exact h₂
        · rw [if_neg hxy] at h₁
          have hlt₁ : x.toNat < y.toNat := by simpa using h₁
          by_cases hyz : y = z
          · subst hyz
            rw [if_neg hxy]
            simpa using hlt₁
          · rw [if_neg hyz] at h₂
            have hlt₂ : y.toNat < z.toNat := by simpa using h₂
            have hxz : x.toNat < z.toNat := by omega
            rw [if_neg (fun e => by rw [e] at hxz; omega)]
            simpa using hxz

theorem pyStrLtB_irrefl : ∀ (a : List Char), pyStrLtB a a = false := by
  intro a
  induction a with
  | nil => rfl
  | cons x xs ih => simpa [pyStrLtB] using ih

theorem pyLtPart?_trans {x y z : Part} (h₁ : pyLtPart? x y = some true)
    (h₂ : pyLtPart? y z = some true) : pyLtPart? x z = some true := by
  cases x <;> cases y <;> cases z <;>
      simp only [pyLtPart?, Option.some.injEq, decide_eq_true_eq, reduceCtorEq] at h₁ h₂ ⊢
  · omega
  · exact pyStrLtB_trans h₁ h₂

theorem pyLtPart?_asymm {x y : Part} (h : pyLtPart? x y = some true) :
    pyEqPart x y = false := by
  cases x <;> cases y <;>
      simp only [pyLtPart?, pyEqPart, Option.some.injEq, decide_eq_true_eq, reduceCtorEq,
        beq_eq_false_iff_ne, ne_eq] at h ⊢
  · omega
  · intro e
    rw [e] at h
    simp [pyStrLt, pyStrLtB_irrefl] at h

theorem pyCmp_refl (a : List Part) : pyCmpTuple? a a = some .eq := by
  induction a with
  | nil => rfl
  | cons x xs ih => simp [pyCmpTuple?, pyEqPart_self, ih]

theorem pyCmp_eq_iff {a b : List Part} : pyCmpTuple? a b = some .eq ↔ a = b := by
  constructor
  · intro h
    induction a generalizing b with
    | nil => cases b with
      | nil => rfl
      | cons y ys => simp [pyCmpTuple?] at h
    | cons x xs ih =>
      cases b with
      | nil => simp [pyCmpTuple?] at h
      | cons y ys =>
        by_cases he : pyEqPart x y = true
        · have := (pyEqPart_iff x y).mp he
          rw [pyCmpTuple?, if_pos he] at h
          rw [this, ih h]
        · rw [pyCmpTuple?, if_neg (by simpa using he)] at h
          rcases hlt : pyLtPart? x y with _ | b' <;> rw [hlt] at h
          · exact absurd h (by simp)
          · cases b' <;> simp at h
  · rintro rfl
    exact pyCmp_refl a

theorem tupLe_iff {a b : List Part} :
    tupLe a b = true ↔ pyCmpTuple? a b = some .lt ∨ pyCmpTuple? a b = some .eq := by
  unfold tupLe
  rcases h : pyCmpTuple? a b with _ | o
  · simp
  · cases o <;> simp

theorem tupLe_refl (a : List Part) : tupLe a a = true :=
  tupLe_iff.mpr (.inr (pyCmp_refl a))

theorem tupLe_trans {a b c : List Part} (h₁ : tupLe a b = true) (h₂ : tupLe b c = true) :
    tupLe a c = true := by
  induction a generalizing b c with
  | nil =>
    cases c with
    | nil => exact tupLe_refl []
    | cons z zs => exact tupLe_iff.mpr (.inl (by simp [pyCmpTuple?]))
  | cons x xs ih =>
    cases b with
    | nil => simp [tupLe, pyCmpTuple?] at h₁
    | cons y ys =>
      cases c with
      | nil => simp [tupLe, pyCmpTuple?] at h₂
      | cons z zs =>
        by_cases hxy : pyEqPart x y = true
        · have exy := (pyEqPart_iff x y).mp hxy
          subst exy
          rw [tupLe, pyCmpTuple?, if_pos hxy, ← tupLe] at h₁
          by_cases hyz : pyEqPart x z = true
          · have := (pyEqPart_iff x z).mp hyz
            subst this
            rw [tupLe, pyCmpTuple?, if_pos hyz, ← tupLe] at h₂
            rw [tupLe, pyCmpTuple?, if_pos (pyEqPart_self x), ← tupLe]
            exact ih h₁ h₂
          · rw [tupLe, pyCmpTuple?, if_neg (by simpa using hyz)] at h₂ ⊢
            exact h₂
        · rw [tupLe, pyCmpTuple?, if_neg (by simpa using hxy)] at h₁
          rcases hlt : pyLtPart? x y with _ | b' <;> rw [hlt] at h₁
          · simp at h₁
          · cases b'
            · simp at h₁
            · -- x < y strictly
              by_cases hyz : pyEqPart y z = true
              · have := (pyEqPart_iff y z).mp hyz
                subst this
                rw [tupLe, pyCmpTuple?,
                  if_neg (by simpa using hxy), hlt]
              · rw [tupLe, pyCmpTuple?, if_neg (by simpa using hyz)] at h₂
                rcases hlt₂ : pyLtPart? y z with _ | b₂ <;> rw [hlt₂] at h₂
                · simp at h₂
                · cases b₂
                  · simp at h₂
                  · have hxz := pyLtPart?_trans hlt hlt₂
                    rw [tupLe, pyCmpTuple?, if_neg (by simp [pyLtPart?_asymm hxz]), hxz]

/-! ### Constraint-evaluation lemmas -/

theorem satAll?_true_spec {v : String} {cs : List String} (h : satAll? v cs = some true) :
    ∀ c ∈ cs, matches_constraint v c = some true := by
  induction cs with
  | nil => simp
  | cons c rest ih =>
    rw [satAll?] at h
    rcases hm : matches_constraint v c with _ | b <;> rw [hm] at h
    · exact absurd h (by simp)
    · cases b
      · exact absurd h (by simp)
      · intro c' hc'
        rcases List.mem_cons.mp hc' with rfl | hr
        · exact hm
        · exact ih h c' hr

theorem satAll?_false_spec {v : String} {cs : List String} (h : satAll? v cs = some false) :
    ∃ c ∈ cs, matches_constraint v c = some false := by
  induction cs with
  | nil => simp [satAll?] at h
  | cons c rest ih =>
    rw [satAll?] at h
    rcases hm : matches_constraint v c with _ | b <;> rw [hm] at h
    · exact absurd h (by simp)
    · cases b
      · exact ⟨c, List.mem_cons_self c rest, hm⟩
      · obtain ⟨c', hc', hm'⟩ := ih h
        exact ⟨c', List.mem_cons_of_mem c hc', hm'⟩

theorem findCompatible_some_sat {vs cs : List String} {v : String}
    (h : findCompatible vs cs = some (some v)) :
    v ∈ vs ∧ satAll? v cs = some true := by
  induction vs with
  | nil => simp [findCompatible] at h
  | cons v₀ rest ih =>
    rw [findCompatible] at h
    rcases hs : satAll? v₀ cs with _ | b <;> rw [hs] at h
    · exact absurd h (by simp)
    · cases b
      · obtain ⟨hmem, hsat⟩ := ih h
        exact ⟨List.mem_cons_of_mem v₀ hmem, hsat⟩
      · simp only [Option.some.injEq] at h
        subst h
        exact ⟨List.mem_cons_self v₀ rest, hs⟩

theorem findCompatible_none_spec {vs cs : List String}
    (h : findCompatible vs cs = some none) :
    ∀ w ∈ vs, satAll? w cs = some false := by
  induction vs with
  | nil => simp
  | cons v₀ rest ih =>
    rw [findCompatible] at h
    rcases hs : satAll? v₀ cs with _ | b <;> rw [hs] at h
    · exact absurd h (by simp)
    · cases b
      · intro w hw
        rcases List.mem_cons.mp hw with rfl | hr
        · exact hs
        · exact ih h w hr
      · exact absurd h (by simp)

theorem findCompatible_greatest {vs cs : List String} {v : String}
    (h : findCompatible vs cs = some (some v))
    (hsorted : vs.Pairwise fun x y => tupLe (version_tuple y) (version_tuple x) = true)
    {w : String} (hw : w ∈ vs) (hsat : satAll? w cs = some true) :
    tupLe (version_tuple w) (version_tuple v) = true := by
  induction vs with
  | nil => simp [findCompatible] at h
  | cons v₀ rest ih =>
    rw [findCompatible] at h
    rcases hs : satAll? v₀ cs with _ | b <;> rw [hs] at h
    · exact absurd h (by simp)
    · cases b
      · rcases List.mem_cons.mp hw with rfl | hr
        · rw [hs] at hsat
          exact absurd hsat (by simp)
        · exact ih h (List.Pairwise.of_cons hsorted) hr
      · simp only [Option.some.injEq] at h
        subst h
        rcases List.mem_cons.mp hw with rfl | hr
        · exact tupLe_refl _
        · exact (List.pairwise_cons.mp hsorted).1 w hr

/-! ### Version-selection (conflict-detection) loop lemmas -/

theorem selectVersions_cons_none {reg : Registry} {p₀ : String}
    {r₀ : List (String × String)} {rest : Req} {cAcc : List Conflict} {rAcc : Packages}
    (hreg : dget reg p₀ = none) :
    selectVersions reg ((p₀, r₀) :: rest) cAcc rAcc =
      selectVersions reg rest (cAcc ++ [⟨p₀, r₀⟩]) rAcc := by
  rw [selectVersions, hreg]

theorem selectVersions_cons_some {reg : Registry} {p₀ : String}
    {r₀ : List (String × String)} {rest : Req} {cAcc : List Conflict} {rAcc : Packages}
    {entry : RegEntry} (hreg : dget reg p₀ = some entry) :
    selectVersions reg ((p₀, r₀) :: rest) cAcc rAcc =
      match findCompatible entry.versions.reverse (r₀.map (·.2)) with
      | none => none
      | some none => selectVersions reg rest (cAcc ++ [⟨p₀, r₀⟩]) rAcc
      | some (some version) => selectVersions reg rest cAcc (dset rAcc p₀ version) := by
  rw [selectVersions, hreg]

theorem selectVersions_acc_mem {reg : Registry} {req : Req}
    {cAcc confl : List Conflict} {rAcc res : Packages}
    (h : selectVersions reg req cAcc rAcc = some (confl, res)) :
    ∀ c ∈ cAcc, c ∈ confl := by
  induction req generalizing cAcc rAcc with
  | nil =>
    rw [selectVersions] at h
    cases h
    exact fun c hc => hc
  | cons e rest ih =>
    obtain ⟨pkg, rows⟩ := e
    rcases hreg : dget reg pkg with _ | entry
    · rw [selectVersions_cons_none hreg] at h
      exact fun c hc => ih h c (List.mem_append_left _ hc)
    · rw [selectVersions_cons_some hreg] at h
      rcases hf : findCompatible entry.versions.reverse (rows.map (·.2)) with _ | ov <;>
        rw [hf] at h
      · exact absurd h (by simp)
      · rcases ov with _ | v
        · exact fun c hc => ih h c (List.mem_append_left _ hc)
        · exact fun c hc => ih h c hc

theorem selectVersions_unsat_mem {reg : Registry} {req : Req}
    {cAcc confl : List Conflict} {rAcc res : Packages}
    (h : selectVersions reg req cAcc rAcc = some (confl, res))
    {pkg : String} {rows : List (String × String)} (hmem : (pkg, rows) ∈ req)
    (hunsat : ∀ entry, dget reg pkg = some entry →
      findCompatible entry.versions.reverse (rows.map (·.2)) = some none) :
    (⟨pkg, rows⟩ : Conflict) ∈ confl := by
  induction req generalizing cAcc rAcc with
  | nil => simp at hmem
  | cons e rest ih =>
    obtain ⟨p₀, r₀⟩ := e
    rcases List.mem_cons.mp hmem with heq | hr
    · cases heq
      rcases hreg : dget reg pkg with _ | entry
      · rw [selectVersions_cons_none hreg] at h
        exact selectVersions_acc_mem h _ (List.mem_append_right _ (List.mem_singleton.mpr rfl))
      · rw [selectVersions_cons_some hreg, hunsat entry hreg] at h
        exact selectVersions_acc_mem h _ (List.mem_append_right _ (List.mem_singleton.mpr rfl))
    · rcases hreg : dget reg p₀ with _ | entry
      · rw [selectVersions_cons_none hreg] at h
        exact ih h hr
      · rw [selectVersions_cons_some hreg] at h
        rcases hf : findCompatible entry.versions.reverse (r₀.map (·.2)) with _ | ov <;>
          rw [hf] at h
        · exact absurd h (by simp)
        · rcases ov with _ | v
          · exact ih h hr
          · exact ih h hr

theorem selectVersions_untouched {reg : Registry} {req : Req}
    {cAcc confl : List Conflict} {rAcc res : Packages}
    (h : selectVersions reg req cAcc rAcc = some (confl, res))
    {k : String} (hk : k ∉ req.map (·.1)) :
    dget res k = dget rAcc k := by
  induction req generalizing cAcc rAcc with
  | nil =>
    rw [selectVersions] at h
    cases h
    rfl
  | cons e rest ih =>
    obtain ⟨p₀, r₀⟩ := e
    simp only [List.map_cons, List.mem_cons, not_or] at hk
    rcases hreg : dget reg p₀ with _ | entry
    · rw [selectVersions_cons_none hreg] at h
      exact ih h hk.2
    · rw [selectVersions_cons_some hreg] at h
      rcases hf : findCompatible entry.versions.reverse (r₀.map (·.2)) with _ | ov <;>
        rw [hf] at h
      · exact absurd h (by simp)
      · rcases ov with _ | v
        · exact ih h hk.2
        · rw [ih h hk.2, dget_dset_ne _ _ _ _ hk.1]

theorem selectVersions_resolved_spec {reg : Registry} {req : Req}
    {cAcc : List Conflict} {rAcc res : Packages}
    (h : selectVersions reg req cAcc rAcc = some ([], res))
    (hnd : (req.map (·.1)).Nodup)
    {pkg : String} {rows : List (String × String)} (hmem : (pkg, rows) ∈ req) :
    ∃ entry v, dget reg pkg = some entry ∧
      findCompatible entry.versions.reverse (rows.map (·.2)) = some (some v) ∧
      dget res pkg = some v := by
  induction req generalizing cAcc rAcc with
  | nil => simp at hmem
  | cons e rest ih =>
    obtain ⟨p₀, r₀⟩ := e
    simp only [List.map_cons, List.nodup_cons] at hnd
    rcases List.mem_cons.mp hmem with heq | hr
    · cases heq
      rcases hreg : dget reg pkg with _ | entry
      · rw [selectVersions_cons_none hreg] at h
        have := selectVersions_acc_mem h (⟨pkg, rows⟩ : Conflict)
          (List.mem_append_right _ (List.mem_singleton.mpr rfl))
        simp at this
      · rw [selectVersions_cons_some hreg] at h
        rcases hf : findCompatible entry.versions.reverse (rows.map (·.2)) with _ | ov <;>
          rw [hf] at h
        · exact absurd h (by simp)
        · rcases ov with _ | v
          · have := selectVersions_acc_mem h (⟨pkg, rows⟩ : Conflict)
              (List.mem_append_right _ (List.mem_singleton.mpr rfl))
            simp at this
          · refine ⟨entry, v, rfl, hf, ?_⟩
            rw [selectVersions_untouched h hnd.1, dget_dset_self]
    · rcases hreg : dget reg p₀ with _ | entry
      · rw [selectVersions_cons_none hreg] at h
        exact ih h hnd.2 hr
      · rw [selectVersions_cons_some hreg] at h
        rcases hf : findCompatible entry.versions.reverse (r₀.map (·.2)) with _ | ov <;>
          rw [hf] at h
        · exact absurd h (by simp)
        · rcases ov with _ | v
          · exact ih h hnd.2 hr
          · exact ih h hnd.2 hr

/-! ### Miscellaneous helper lemmas -/

theorem pyTupleEq_iff (a b : List Part) : pyTupleEq a b = true ↔ a = b := by
  induction a generalizing b with
  | nil => cases b <;> simp [pyTupleEq]
  | cons x xs ih =>
    cases b with
    | nil => simp [pyTupleEq]
    | cons y ys => simp [pyTupleEq, pyEqPart_iff, ih]

theorem satAll?_of_all {v : String} {cs : List String}
    (h : ∀ c ∈ cs, matches_constraint v c = some true) : satAll? v cs = some true := by
  induction cs with
  | nil => rfl
  | cons c rest ih =>
    rw [satAll?, h c (List.mem_cons_self c rest)]
    exact ih fun c' hc' => h c' (List.mem_cons_of_mem c hc')

theorem splitDots_ne_nil (cs : List Char) : splitDots cs ≠ [] := by
  induction cs with
  | nil => simp [splitDots]
  | cons c rest ih =>
    rw [splitDots]
    by_cases h : c = '.'
    · simp [h]
    · rw [if_neg h]
      rcases he : splitDots rest with _ | ⟨g, gs⟩
      · exact absurd he ih
      · simp

theorem insertPair_perm (x : String × String) (l : List (String × String)) :
    List.Perm (insertPair x l) (x :: l) := by
  induction l with
  | nil => rfl
  | cons y ys ih =>
    rw [insertPair]
    by_cases h : pyPairLe x y
    · rw [if_pos h]
    · rw [if_neg h]
      exact (ih.cons y).trans (List.Perm.swap x y ys)

theorem pySortPairs_perm (l : List (String × String)) : List.Perm (pySortPairs l) l := by
  induction l with
  | nil => rfl
  | cons x xs ih =>
    exact (insertPair_perm x (pySortPairs xs)).trans (ih.cons x)

theorem dget_perm {α : Type} {l l' : List (String × α)} (hp : List.Perm l l')
    (hnd : (l.map (·.1)).Nodup) (k : String) : dget l k = dget l' k := by
  have hnd' : (l'.map (·.1)).Nodup := ((hp.map (·.1)).nodup_iff).mp hnd
  rcases h : dget l k with _ | v
  · rw [dget_none_iff] at h
    have : k ∉ l'.map (·.1) := fun hk => h ((hp.map (·.1)).mem_iff.mpr hk)
    exact ((dget_none_iff l' k).mpr this).symm
  · exact (dget_eq_some_of_mem l' k v hnd' (hp.subset (mem_of_dget_eq_some h))).symm

theorem lockfile_fold_lookup (reg : Registry) (lf : Packages) :
    ∀ (pkgs : Packages), (lf.map (·.1)).Nodup →
    ∀ k, dget (install_from_lockfile reg pkgs lf).2 k =
      match dget lf k with
      | some v => if (dget reg k).isSome then some v else dget pkgs k
      | none => dget pkgs k := by
  induction lf with
  | nil => intro pkgs _ k; simp [install_from_lockfile, dget]
  | cons e rest ih =>
    obtain ⟨n₀, v₀⟩ := e
    intro pkgs hnd k
    simp only [List.map_cons, List.nodup_cons] at hnd
    have step : (install_from_lockfile reg pkgs ((n₀, v₀) :: rest)).2 =
        (install_from_lockfile reg
          (if (dget reg n₀).isSome then dset pkgs n₀ v₀ else pkgs) rest).2 := by
      simp only [install_from_lockfile, List.foldl_cons]
    rw [step, ih _ hnd.2 k]
    by_cases hk : k = n₀
    · subst hk
      have hnone : dget rest k = none :=
        (dget_none_iff rest k).mpr fun hm => hnd.1 hm
      have hcons : dget ((k, v₀) :: rest) k = some v₀ := by
        rw [dget_cons]
        simp
      simp only [hnone, hcons]
      by_cases hr : (dget reg k).isSome
      · simp [hr, dget_dset_self]
      · simp [hr]
    · have hlist : dget ((n₀, v₀) :: rest) k = dget rest k := by
        rw [dget_cons, if_neg (by simpa [beq_iff_eq] using fun e => hk e.symm)]
      have hPK : dget (if (dget reg n₀).isSome = true then dset pkgs n₀ v₀ else pkgs) k =
          dget pkgs k := by
        by_cases hr : (dget reg n₀).isSome
        · rw [if_pos hr, dget_dset_ne _ _ _ _ hk]
        · rw [if_neg (by simpa using hr)]
      simp only [hlist]
      rcases hrest : dget rest k with _ | v
      · exact hPK
      · by_cases hr2 : (dget reg k).isSome
        · simp [hr2]
        · simp [hr2, hPK]

theorem string_mk_ne_empty {bd : List Char} (h : bd ≠ []) : String.mk bd ≠ "" := by
  intro e
  apply h
  have : (String.mk bd).data = ("" : String).data := by rw [e]
  simpa using this

theorem ne_empty_data {b : String} (hb : b ≠ "") : b.data ≠ [] := by
  intro e
  apply hb
  cases b
  simp at e
  rw [e]

theorem parse_constraint_eq_op {b : String} (hb : b ≠ "") :
    parse_constraint ("==" ++ b) = some ("==", b) := by
  cases b with
  | mk bd =>
    have hbd : bd ≠ [] := by simpa using ne_empty_data hb
    have hd : ("==" ++ String.mk bd).data = '=' :: '=' :: bd := by
      rw [String.data_append]
      rfl
    simp only [parse_constraint, hd]
    simp [hbd]

theorem insertStr_length (x : String) (l : List String) :
    (Stage2.insertStr x l).length = l.length + 1 := by
  induction l with
  | nil => rfl
  | cons y ys ih =>
    rw [Stage2.insertStr]
    by_cases h : !(pyStrLt y x)
    · rw [if_pos h]
      rfl
    · rw [if_neg h]
      simp [ih]

theorem pySortStr_length (l : List String) : (Stage2.pySortStr l).length = l.length := by
  induction l with
  | nil => rfl
  | cons x xs ih =>
    simp only [Stage2.pySortStr, List.foldr_cons] at ih ⊢
    rw [insertStr_length, ih]
    rfl

theorem install_unknown {reg : Registry} {packages : Packages} {name : String}
    {constraint : Option String} {fC fI : Nat} (h : dget reg name = none) :
    install reg packages name constraint fC fI = some ⟨false, [], [], packages⟩ := by
  rw [install]
  simp [h]

theorem install_known {reg : Registry} {packages : Packages} {name : String}
    {constraint : Option String} {fC fI : Nat} {entry : RegEntry}
    (h : dget reg name = some entry) :
    install reg packages name constraint fC fI =
      match collectFuel reg fC name constraint [] "root" with
      | none => none
      | some req =>
        match selectVersions reg req [] [] with
        | none => none
        | some (conflicts, resolved) =>
          if conflicts.isEmpty then
            match installOrderedFuel reg resolved fI name [] packages [] with
            | none => none
            | some (succ, installed, packages', _) => some ⟨succ, installed, [], packages'⟩
          else some ⟨false, [], conflicts, packages⟩ := by
  rw [install, if_neg (by simp [h])]

/-! ### Claim theorems -/

/-- C5, counterexample: the claim says versions whose component
sequences agree after right-padding with zeros compare EQUAL and satisfy
each other's `==` constraint.  The code pads nothing: `"1.2"` and
`"1.2.0"` compare LESS-THAN (Python orders the shorter tuple first) and
neither satisfies the other's `==` constraint. -/
theorem c5_counterexample :
    matches_constraint "1.2" "==1.2.0" = some false ∧
    matches_constraint "1.2.0" "==1.2" = some false ∧
    pyCmpTuple? (version_tuple "1.2") (version_tuple "1.2.0") = some Ordering.lt := by
  decide

/-- C5 (amended): version comparison performs no zero-padding.  A
version satisfies an `==` constraint exactly when its component tuple is
*identical* to the target's tuple (`(1,2) ≠ (1,2,0)`), and the tuple
comparison of `"1.2"` against `"1.2.0"` is LESS-THAN, not EQUAL. -/
theorem c5_eq_constraint_no_padding :
    (∀ a b : String, b ≠ "" →
      matches_constraint a ("==" ++ b) = some (pyTupleEq (version_tuple a) (version_tuple b)) ∧
      (pyTupleEq (version_tuple a) (version_tuple b) = true ↔
        version_tuple a = version_tuple b)) ∧
    pyCmpTuple? (version_tuple "1.2") (version_tuple "1.2.0") = some Ordering.lt := by
  constructor
  · intro a b hb
    refine ⟨?_, pyTupleEq_iff _ _⟩
    rw [matches_constraint, parse_constraint_eq_op hb]
    rfl
  · decide

/-- C5, witness. -/
theorem c5_witness :
    ("1.2.0" : String) ≠ "" ∧
    matches_constraint "1.2" "==1.2.0" =
      some (pyTupleEq (version_tuple "1.2") (version_tuple "1.2.0")) :=
  ⟨by decide, (c5_eq_constraint_no_padding.1 "1.2" "1.2.0" (by decide)).1⟩

/-- C6, counterexample: the claim says a non-numeric dot-separated
component makes parsing fail with `MalformedVersion`.  The code has no
such failure: `_version_tuple` keeps the component as a string, and the
malformed version even satisfies its own `==` constraint. -/
theorem c6_counterexample :
    version_tuple "1.x" = [Part.int 1, Part.str "x"] ∧
    matches_constraint "1.x" "==1.x" = some true := by
  decide

/-- C6 (amended): `_version_tuple` never fails.  It always returns a
non-empty tuple, and a component on which `int()` raises `ValueError` is
kept verbatim as a string component — never rejected and never
defaulted. -/
theorem c6_version_parse_total :
    (∀ s : String, version_tuple s ≠ []) ∧
    (∀ (s : String) (part : List Char), part ∈ splitDots s.data →
      pyInt? ⟨part⟩ = none → Part.str ⟨part⟩ ∈ version_tuple s) := by
  constructor
  · intro s
    simp only [version_tuple, ne_eq, List.map_eq_nil_iff]
    exact splitDots_ne_nil s.data
  · intro s part hmem hnone
    simp only [version_tuple]
    refine List.mem_map.mpr ⟨part, hmem, ?_⟩
    rw [hnone]

/-- C6, witness. -/
theorem c6_witness :
    pyInt? ⟨['x']⟩ = none ∧ Part.str ⟨['x']⟩ ∈ version_tuple "1.x" ∧ version_tuple "" ≠ [] :=
  ⟨by decide, c6_version_parse_total.2 "1.x" ['x'] (by decide) (by decide),
    c6_version_parse_total.1 ""⟩

/-- C7, counterexample: the claim says `from_lockfile(to_lockfile(m))`
reproduces every entry of `m`.  `install_from_lockfile` silently skips
entries whose package is not registered, so a map holding an
unregistered name does not round-trip. -/
theorem c7_counterexample :
    dget (install_from_lockfile soloReg []
      (generate_lockfile [("ghost", "1.0.0")])).2 "ghost" = none ∧
    dget [("ghost", "1.0.0")] "ghost" = some "1.0.0" := by
  decide

/-- C7 (amended): for a map with unique names *all of which are
registered*, restoring the generated lockfile into an empty ledger
reproduces every entry verbatim (the restored map has exactly the same
lookups) and reports success; entries with unregistered names are
dropped, so the unrestricted round-trip fails. -/
theorem c7_roundtrip_registered :
    ∀ (reg : Registry) (m : Packages), (m.map (·.1)).Nodup →
      (∀ e ∈ m, (dget reg e.1).isSome = true) →
      (install_from_lockfile reg [] (generate_lockfile m)).1 = true ∧
      ∀ k, dget (install_from_lockfile reg [] (generate_lockfile m)).2 k = dget m k := by
  intro reg m hnd hreg
  have hperm : List.Perm (generate_lockfile m) m := pySortPairs_perm m
  have hsnd : ((generate_lockfile m).map (·.1)).Nodup :=
    ((hperm.map (·.1)).nodup_iff).mpr hnd
  refine ⟨rfl, fun k => ?_⟩
  rw [lockfile_fold_lookup reg _ [] hsnd k, dget_perm hperm hsnd k]
  rcases hm : dget m k with _ | v
  · rfl
  · have hr : (dget reg k).isSome = true := hreg (k, v) (mem_of_dget_eq_some hm)
    simp [hr]

/-- C7, witness. -/
theorem c7_witness :
    ((([("solo", "1.0.0")] : Packages).map (·.1)).Nodup ∧
      (∀ e ∈ ([("solo", "1.0.0")] : Packages), (dget soloReg e.1).isSome = true)) ∧
    dget (install_from_lockfile soloReg []
      (generate_lockfile [("solo", "1.0.0")])).2 "solo" =
      dget [("solo", "1.0.0")] "solo" :=
  ⟨⟨by decide, by decide⟩,
    (c7_roundtrip_registered soloReg [("solo", "1.0.0")] (by decide) (by decide)).2 "solo"⟩

/-- C8, counterexample: the claim says the failure names *the* blocking
dependents.  With two installed dependents (`pkg1`, `pkg2`) the error
message is exactly the one produced when only `pkg1` is installed — the
second blocker is never named, although the dependent sets differ. -/
theorem c8_counterexample :
    (Stage2.uninstall ⟨[("base", "1.0.0"), ("pkg1", "1.0.0"), ("pkg2", "1.0.0")],
        [("base", []), ("pkg1", ["base"]), ("pkg2", ["base"])]⟩ "base").1 =
      (Stage2.uninstall ⟨[("base", "1.0.0"), ("pkg1", "1.0.0")],
        [("base", []), ("pkg1", ["base"])]⟩ "base").1 ∧
    Stage2.get_dependents ⟨[("base", "1.0.0"), ("pkg1", "1.0.0"), ("pkg2", "1.0.0")],
        [("base", []), ("pkg1", ["base"]), ("pkg2", ["base"])]⟩ "base" = ["pkg1", "pkg2"] ∧
    Stage2.get_dependents ⟨[("base", "1.0.0"), ("pkg1", "1.0.0")],
        [("base", []), ("pkg1", ["base"])]⟩ "base" = ["pkg1"] := by
  decide

/-- C8 (amended): `uninstall` on a package with a non-empty installed
dependent set fails — naming only the *first* blocking dependent in
dictionary order — and leaves the ledger completely unchanged. -/
theorem c8_uninstall_blocked_unchanged :
    ∀ (s : Stage2.S2State) (name : String),
      Stage2.get_dependents s name ≠ [] →
      (Stage2.uninstall s name).1.1 = false ∧ (Stage2.uninstall s name).2 = s := by
  intro s name hdep
  rw [Stage2.uninstall]
  by_cases h1 : (dget s.packages name).isNone
  · rw [if_pos h1]
    exact ⟨rfl, rfl⟩
  · rw [if_neg h1]
    rcases hf : s.packages.find?
        (fun p => ((dget s.dependencies p.1).getD []).contains name) with _ | p
    · exfalso
      apply hdep
      have hall := List.find?_eq_none.mp hf
      have : s.packages.filterMap (fun p =>
          if ((dget s.dependencies p.1).getD []).contains name then some p.1 else none) = [] := by
        rw [List.filterMap_eq_nil_iff]
        intro a ha
        rw [if_neg (by simpa using hall a ha)]
      have hlen : (Stage2.get_dependents s name).length = 0 := by
        rw [Stage2.get_dependents, pySortStr_length, this]
        rfl
      exact List.eq_nil_of_length_eq_zero hlen
    · rw [hf]
      exact ⟨rfl, rfl⟩

/-- C8, witness. -/
theorem c8_witness :
    Stage2.get_dependents ⟨[("base", "1.0.0"), ("pkg1", "1.0.0")],
        [("base", []), ("pkg1", ["base"])]⟩ "base" ≠ [] ∧
    (Stage2.uninstall ⟨[("base", "1.0.0"), ("pkg1", "1.0.0")],
        [("base", []), ("pkg1", ["base"])]⟩ "base").1.1 = false ∧
    (Stage2.uninstall ⟨[("base", "1.0.0"), ("pkg1", "1.0.0")],
        [("base", []), ("pkg1", ["base"])]⟩ "base").2 =
      ⟨[("base", "1.0.0"), ("pkg1", "1.0.0")], [("base", []), ("pkg1", ["base"])]⟩ :=
  ⟨by decide, c8_uninstall_blocked_unchanged _ "base" (by decide)⟩

/-- C10: `install_from_lockfile` always returns `True`, installs an
entry exactly when its name is registered, and silently leaves
everything else (unregistered entries, packages not in the lockfile)
untouched — no error is reported for unregistered entries. -/
theorem c10_lockfile_skips_unregistered :
    ∀ (reg : Registry) (pkgs lf : Packages), (lf.map (·.1)).Nodup →
      (install_from_lockfile reg pkgs lf).1 = true ∧
      (∀ n v, (n, v) ∈ lf → (dget reg n).isSome = true →
        dget (install_from_lockfile reg pkgs lf).2 n = some v) ∧
      (∀ n v, (n, v) ∈ lf → (dget reg n).isSome = false →
        dget (install_from_lockfile reg pkgs lf).2 n = dget pkgs n) ∧
      (∀ n, n ∉ lf.map (·.1) → dget (install_from_lockfile reg pkgs lf).2 n = dget pkgs n) := by
  intro reg pkgs lf hnd
  refine ⟨rfl, ?_, ?_, ?_⟩
  · intro n v hmem hreg
    rw [lockfile_fold_lookup reg lf pkgs hnd n, dget_eq_some_of_mem lf n v hnd hmem]
    simp [hreg]
  · intro n v hmem hreg
    rw [lockfile_fold_lookup reg lf pkgs hnd n, dget_eq_some_of_mem lf n v hnd hmem]
    simp [hreg]
  · intro n hn
    rw [lockfile_fold_lookup reg lf pkgs hnd n, (dget_none_iff lf n).mpr hn]

/-- C10, witness. -/
theorem c10_witness :
    ((([("solo", "2.0.0"), ("ghost", "9.9.9")] : Packages).map (·.1)).Nodup ∧
      (dget soloReg "solo").isSome = true ∧ (dget soloReg "ghost").isSome = false) ∧
    (install_from_lockfile soloReg [] [("solo", "2.0.0"), ("ghost", "9.9.9")]).1 = true ∧
    dget (install_from_lockfile soloReg [] [("solo", "2.0.0"), ("ghost", "9.9.9")]).2 "solo" =
      some "2.0.0" ∧
    dget (install_from_lockfile soloReg [] [("solo", "2.0.0"), ("ghost", "9.9.9")]).2 "ghost" =
      dget ([] : Packages) "ghost" :=
  ⟨⟨by decide, by decide, by decide⟩,
    (c10_lockfile_skips_unregistered soloReg [] _ (by decide)).1,
    (c10_lockfile_skips_unregistered soloReg [] _ (by decide)).2.1 "solo" "2.0.0"
      (by decide) (by decide),
    (c10_lockfile_skips_unregistered soloReg [] _ (by decide)).2.2.1 "ghost" "9.9.9"
      (by decide) (by decide)⟩

/-- C3, counterexample: the claim says every failure of install is
atomic.  On `partialReg` (where `app` reaches `d` through an
empty-string constraint, so `d`'s dependency `x` is never collected and
never resolved), `install` returns failure *after* installing `good`:
the installed list is non-empty and the package state has changed. -/
theorem c3_counterexample :
    install partialReg [] "app" none 10 10 =
      some ⟨false, ["good==1.0.0"], [], [("good", "1.0.0")]⟩ := by
  decide

/-- C3 (amended): failures reported before the ordered-install phase —
an unknown root package or a non-empty conflict list — are atomic: the
returned map is empty and the installed-package state is exactly the
state before the call.  (A failure of the ordered-install walk itself,
reachable through a falsy dependency constraint, is not atomic.) -/
theorem c3_conflict_and_unknown_failures_atomic :
    ∀ (reg : Registry) (packages : Packages) (name : String) (constraint : Option String)
      (fC fI : Nat) (r : InstallResult),
      install reg packages name constraint fC fI = some r →
      (dget reg name = none ∨ r.conflicts ≠ []) →
      r.success = false ∧ r.installed = [] ∧ r.packages = packages := by
  intro reg packages name constraint fC fI r hr hfail
  rcases hroot : dget reg name with _ | entry
  · rw [install_unknown hroot] at hr
    cases hr
    exact ⟨rfl, rfl, rfl⟩
  · rw [install_known hroot] at hr
    rcases hc : collectFuel reg fC name constraint [] "root" with _ | req
    · simp only [hc] at hr
      exact absurd hr (by simp)
    · simp only [hc] at hr
      rcases hsel : selectVersions reg req [] [] with _ | ⟨conflicts, resolved⟩
      · simp only [hsel] at hr
        exact absurd hr (by simp)
      · simp only [hsel] at hr
        by_cases hcf : conflicts.isEmpty
        · rw [if_pos hcf] at hr
          rcases hio : installOrderedFuel reg resolved fI name [] packages [] with
              _ | ⟨succ, installed, packages', vis⟩
          · simp only [hio] at hr
            exact absurd hr (by simp)
          · simp only [hio] at hr
            cases hr
            rcases hfail with hfail | hfail
            · rw [hroot] at hfail
              cases hfail
            · exact absurd rfl hfail
        · rw [if_neg hcf] at hr
          cases hr
          exact ⟨rfl, rfl, rfl⟩

/-- C3, witness. -/
theorem c3_witness :
    (install dupConstraintReg [] "app" none 10 10 =
      some ⟨false, [], [⟨"base", [("pkg1", ">=2.0.0")]⟩], []⟩ ∧
      ([⟨"base", [("pkg1", ">=2.0.0")]⟩] : List Conflict) ≠ []) ∧
    (false : Bool) = false ∧
    ([] : List String) = [] ∧
    ([] : Packages) = ([] : Packages) :=
  ⟨⟨by decide, by decide⟩,
    c3_conflict_and_unknown_failures_atomic dupConstraintReg [] "app" none 10 10
      ⟨false, [], [⟨"base", [("pkg1", ">=2.0.0")]⟩], []⟩ (by decide) (Or.inr (by decide))⟩

/-- C9, counterexample: the claim says two calls with identical
arguments against the same registry return identical results regardless
of earlier calls.  A second identical `install` on the same instance
returns an empty installed list because the first call mutated
`_packages`. -/
theorem c9_counterexample :
    install soloReg [] "solo" none 5 5 =
      some ⟨true, ["solo==1.0.0"], [], [("solo", "1.0.0")]⟩ ∧
    install soloReg [("solo", "1.0.0")] "solo" none 5 5 =
      some ⟨true, [], [], [("solo", "1.0.0")]⟩ ∧
    (["solo==1.0.0"] : List String) ≠ [] := by
  decide

/-- C9 (amended): `install` reads and mutates the installed-package
state, so the returned installed list (and, through pre-installed
subtrees, even the success flag) may depend on earlier calls; only the
constraint-collection and version-selection phases are state
independent: whenever two calls with the same registry and arguments
both return, they return the same conflict list. -/
theorem c9_conflicts_state_independent :
    ∀ (reg : Registry) (p₁ p₂ : Packages) (name : String) (constraint : Option String)
      (fC fI : Nat) (r₁ r₂ : InstallResult),
      install reg p₁ name constraint fC fI = some r₁ →
      install reg p₂ name constraint fC fI = some r₂ →
      r₁.conflicts = r₂.conflicts := by
  intro reg p₁ p₂ name constraint fC fI r₁ r₂ h₁ h₂
  rcases hroot : dget reg name with _ | entry
  · rw [install_unknown hroot] at h₁ h₂
    cases h₁
    cases h₂
    rfl
  · rw [install_known hroot] at h₁ h₂
    rcases hc : collectFuel reg fC name constraint [] "root" with _ | req
    · simp only [hc] at h₁
      exact absurd h₁ (by simp)
    · simp only [hc] at h₁ h₂
      rcases hsel : selectVersions reg req [] [] with _ | ⟨conflicts, resolved⟩
      · simp only [hsel] at h₁
        exact absurd h₁ (by simp)
      · simp only [hsel] at h₁ h₂
        by_cases hcf : conflicts.isEmpty
        · rw [if_pos hcf] at h₁ h₂
          rcases hio₁ : installOrderedFuel reg resolved fI name [] p₁ [] with
              _ | ⟨succ₁, inst₁, pk₁, vis₁⟩
          · simp only [hio₁] at h₁
            exact absurd h₁ (by simp)
          · rcases hio₂ : installOrderedFuel reg resolved fI name [] p₂ [] with
                _ | ⟨succ₂, inst₂, pk₂, vis₂⟩
            · simp only [hio₂] at h₂
              exact absurd h₂ (by simp)
            · simp only [hio₁] at h₁
              simp only [hio₂] at h₂
              cases h₁
              cases h₂
              rfl
        · rw [if_neg hcf] at h₁ h₂
          cases h₁
          cases h₂
          rfl

/-- C9, witness. -/
theorem c9_witness :
    (install soloReg [] "solo" none 5 5 =
        some ⟨true, ["solo==1.0.0"], [], [("solo", "1.0.0")]⟩ ∧
      install soloReg [("solo", "1.0.0")] "solo" none 5 5 =
        some ⟨true, [], [], [("solo", "1.0.0")]⟩) ∧
    (⟨true, ["solo==1.0.0"], [], [("solo", "1.0.0")]⟩ : InstallResult).conflicts =
      (⟨true, [], [], [("solo", "1.0.0")]⟩ : InstallResult).conflicts :=
  ⟨⟨by decide, by decide⟩,
    c9_conflicts_state_independent soloReg [] [("solo", "1.0.0")] "solo" none 5 5
      _ _ (by decide) (by decide)⟩

/-- C2, counterexample: the claim says memoization is keyed on the
(package, requirer, constraint) triple, so the same constraint text from
a different requirer is recorded as its own row.  The code keys the test
on (package, constraint) only: with `pkg1` and `pkg2` both requiring
`base >=2.0.0`, the conflict entry for `base` carries a single row — the
`pkg2` row was skipped, not recorded. -/
theorem c2_counterexample :
    install dupConstraintReg [] "app" none 10 10 =
      some ⟨false, [], [⟨"base", [("pkg1", ">=2.0.0")]⟩], []⟩ ∧
    ("pkg2", ">=2.0.0") ∉ [("pkg1", ">=2.0.0")] := by
  decide

/-- C2 (amended): version selection continues past the first failure and
the returned conflict list contains one entry for *every* package of the
requirement map with no version satisfying all its collected rows (or
absent from the registry), each entry carrying exactly the collected
rows.  But collection is memoized on (package, constraint-text) only:
the same constraint text arriving from a different requirer is skipped,
as the collected map of the duplicate-constraint registry shows. -/
theorem c2_conflicts_enumerated :
    (∀ (reg : Registry) (req : Req) (confl : List Conflict) (res : Packages)
       (pkg : String) (rows : List (String × String)),
      selectVersions reg req [] [] = some (confl, res) →
      (pkg, rows) ∈ req →
      (∀ entry, dget reg pkg = some entry →
        findCompatible entry.versions.reverse (rows.map (·.2)) = some none) →
      (⟨pkg, rows⟩ : Conflict) ∈ confl) ∧
    collectFuel dupConstraintReg 10 "app" none [] "root" =
      some [("app", []), ("pkg1", []), ("base", [("pkg1", ">=2.0.0")]), ("pkg2", [])] := by
  constructor
  · intro reg req confl res pkg rows h hmem hunsat
    exact selectVersions_unsat_mem h hmem hunsat
  · decide

/-- C2, witness. -/
theorem c2_witness :
    (selectVersions dupConstraintReg
        [("app", []), ("pkg1", []), ("base", [("pkg1", ">=2.0.0")]), ("pkg2", [])] [] [] =
      some ([⟨"base", [("pkg1", ">=2.0.0")]⟩],
        [("app", "1.0.0"), ("pkg1", "1.0.0"), ("pkg2", "1.0.0")]) ∧
      ("base", [("pkg1", ">=2.0.0")]) ∈
        [("app", ([] : List (String × String))), ("pkg1", []),
          ("base", [("pkg1", ">=2.0.0")]), ("pkg2", [])]) ∧
    (⟨"base", [("pkg1", ">=2.0.0")]⟩ : Conflict) ∈ [⟨"base", [("pkg1", ">=2.0.0")]⟩] :=
  ⟨⟨by decide, by decide⟩,
    c2_conflicts_enumerated.1 dupConstraintReg
      [("app", []), ("pkg1", []), ("base", [("pkg1", ">=2.0.0")]), ("pkg2", [])]
      [⟨"base", [("pkg1", ">=2.0.0")]⟩]
      [("app", "1.0.0"), ("pkg1", "1.0.0"), ("pkg2", "1.0.0")]
      "base" [("pkg1", ">=2.0.0")] (by decide) (by decide)
      (fun entry he => by
        have : entry = (⟨["1.0.0"], []⟩ : RegEntry) := by
          have hd : dget dupConstraintReg "base" = some (⟨["1.0.0"], []⟩ : RegEntry) := by
            decide
          rw [hd] at he
          cases he
          rfl
        rw [this]
        decide)⟩

/-- C1: whenever selection succeeds with no conflicts, the version
recorded for every package of the requirement map is the highest
version of that package's (ascending, numeric) registry list satisfying
every collected constraint row; in particular the diamond case resolves
`base` to `1.5.0` with no conflict and reports success. -/
theorem c1_selection_picks_highest :
    (∀ (reg : Registry) (req : Req) (res : Packages) (pkg : String)
       (rows : List (String × String)) (entry : RegEntry) (v : String),
      RegSorted reg →
      (req.map (·.1)).Nodup →
      selectVersions reg req [] [] = some ([], res) →
      (pkg, rows) ∈ req →
      dget reg pkg = some entry →
      dget res pkg = some v →
      v ∈ entry.versions ∧ SatRows v rows ∧
        ∀ w ∈ entry.versions, SatRows w rows →
          tupLe (version_tuple w) (version_tuple v) = true) ∧
    install diamondReg [] "app" none 10 10 =
      some ⟨true, ["base==1.5.0", "pkg1==1.0.0", "pkg2==1.0.0", "app==1.0.0"], [],
        [("base", "1.5.0"), ("pkg1", "1.0.0"), ("pkg2", "1.0.0"), ("app", "1.0.0")]⟩ := by
  constructor
  · intro reg req res pkg rows entry v hsorted hnd hsel hmem hreg hres
    obtain ⟨entry', v', hreg', hf, hres'⟩ := selectVersions_resolved_spec hsel hnd hmem
    rw [hreg] at hreg'
    cases hreg'
    rw [hres] at hres'
    cases hres'
    obtain ⟨hvmem, hvsat⟩ := findCompatible_some_sat hf
    have hsatrows : SatRows v rows := by
      intro r hr
      exact satAll?_true_spec hvsat r.2 (List.mem_map.mpr ⟨r, hr, rfl⟩)
    refine ⟨List.mem_reverse.mp hvmem, hsatrows, ?_⟩
    intro w hw hwsat
    have hwall : satAll? w (rows.map (·.2)) = some true := by
      apply satAll?_of_all
      intro c hc
      obtain ⟨r, hr, rfl⟩ := List.mem_map.mp hc
      exact hwsat r hr
    have hrev : entry.versions.reverse.Pairwise
        (fun x y => tupLe (version_tuple y) (version_tuple x) = true) := by
      rw [List.pairwise_reverse]
      exact (hsorted (pkg, entry) (mem_of_dget_eq_some hreg)).1
    exact findCompatible_greatest hf hrev (List.mem_reverse.mpr hw) hwall
  · decide

/-- C1, witness. -/
theorem c1_witness :
    (RegSorted diamondReg ∧
      selectVersions diamondReg
        [("app", []), ("pkg1", []), ("base", [("pkg1", ">=1.0.0"), ("pkg2", "<=1.5.0")]),
          ("pkg2", [])] [] [] =
        some ([], [("app", "1.0.0"), ("pkg1", "1.0.0"), ("base", "1.5.0"),
          ("pkg2", "1.0.0")]) ∧
      dget diamondReg "base" = some ⟨["1.0.0", "1.5.0", "2.0.0"], []⟩) ∧
    ("1.5.0" ∈ ["1.0.0", "1.5.0", "2.0.0"] ∧
      SatRows "1.5.0" [("pkg1", ">=1.0.0"), ("pkg2", "<=1.5.0")] ∧
      ∀ w ∈ ["1.0.0", "1.5.0", "2.0.0"],
        SatRows w [("pkg1", ">=1.0.0"), ("pkg2", "<=1.5.0")] →
        tupLe (version_tuple w) (version_tuple "1.5.0") = true) :=
  ⟨⟨by decide, by decide, by decide⟩,
    c1_selection_picks_highest.1 diamondReg
      [("app", []), ("pkg1", []), ("base", [("pkg1", ">=1.0.0"), ("pkg2", "<=1.5.0")]),
        ("pkg2", [])]
      [("app", "1.0.0"), ("pkg1", "1.0.0"), ("base", "1.5.0"), ("pkg2", "1.0.0")]
      "base" [("pkg1", ">=1.0.0"), ("pkg2", "<=1.5.0")] ⟨["1.0.0", "1.5.0", "2.0.0"], []⟩
      "1.5.0" (by decide) (by decide) (by decide) (by decide) (by decide) (by decide)⟩

/-! ### Divergence of the constraint-less cycle -/

theorem cycleNone_unfold_a (f : Nat) (req : Req) (requirer : String) :
    collectFuel cycleNoneReg (f + 1) "a" none req requirer =
      match collectFuel cycleNoneReg f "b" none
          (if (dget req "a").isSome then req else req ++ [("a", [])]) "a" with
      | none => none
      | some r => some r := by
  rfl

theorem cycleNone_unfold_b (f : Nat) (req : Req) (requirer : String) :
    collectFuel cycleNoneReg (f + 1) "b" none req requirer =
      match collectFuel cycleNoneReg f "a" none
          (if (dget req "b").isSome then req else req ++ [("b", [])]) "b" with
      | none => none
      | some r => some r := by
  rfl

theorem cycleNone_collect_none :
    ∀ (f : Nat) (name : String), (name = "a" ∨ name = "b") → ∀ (req : Req) (requirer : String),
      collectFuel cycleNoneReg f name none req requirer = none := by
  intro f
  induction f with
  | zero =>
    rintro name _ req requirer
    rfl
  | succ f ih =>
    rintro name (rfl | rfl) req requirer
    · rw [cycleNone_unfold_a, ih "b" (Or.inr rfl)]
    · rw [cycleNone_unfold_b, ih "a" (Or.inl rfl)]

/-- C4, counterexample: the claim says a dependency cycle with
satisfiable constraints always terminates and resolves.  When the two
cycle edges carry no constraint (Python `None` — the spec's
"no constraint means any version", trivially satisfiable), the
constraint-memoization never fires, `_collect_requirements` recurses
between `a` and `b` for ever, and `install` never returns: the model
returns no value at any recursion bound. -/
theorem c4_counterexample : installDiverges cycleNoneReg "a" := by
  intro fC fI
  have hroot : dget cycleNoneReg "a" =
      some ⟨["1.0.0"], [("1.0.0", [("b", none)])]⟩ := by decide
  rw [install_known hroot, cycleNone_collect_none fC "a" (Or.inl rfl) [] "root"]

/-! ### Totality of matching on numeric data -/

theorem pyCmp_total {a : List Part} : ∀ {b : List Part},
    allInt a = true → allInt b = true → ∃ o, pyCmpTuple? a b = some o := by
  induction a with
  | nil =>
    intro b _ _
    cases b with
    | nil => exact ⟨.eq, rfl⟩
    | cons y ys => exact ⟨.lt, rfl⟩
  | cons x xs ih =>
    intro b ha hb
    cases b with
    | nil => exact ⟨.gt, rfl⟩
    | cons y ys =>
      simp only [allInt, List.all_cons, Bool.and_eq_true] at ha hb
      cases x with
      | str s => simp at ha
      | int i =>
        cases y with
        | str s => simp at hb
        | int j =>
          rw [pyCmpTuple?]
          by_cases he : pyEqPart (.int i) (.int j) = true
          · rw [if_pos he]
            exact ih ha.2 hb.2
          · rw [if_neg he, pyLtPart?]
            by_cases hl : i < j
            · exact ⟨.lt, by simp [hl]⟩
            · exact ⟨.gt, by simp [hl]⟩

theorem parse_constraint_op {c op t : String} (h : parse_constraint c = some (op, t)) :
    op = "==" ∨ op = ">=" ∨ op = "<=" ∨ op = ">" ∨ op = "<" ∨ op = "~=" := by
  rcases hd : c.data with _ | ⟨c₁, _ | ⟨c₂, rest⟩⟩ <;>
    simp only [parse_constraint, hd] at h
  · cases h
  · cases h
    simp
  · split_ifs at h <;> (cases h; simp)

theorem matches_total {v c : String} (hv : numericVer v = true) (hc : constrOk c = true) :
    ∃ b, matches_constraint v c = some b := by
  rcases hp : parse_constraint c with _ | ⟨op, t⟩
  · rw [constrOk, hp] at hc
    cases hc
  · rw [constrOk, hp] at hc
    have ht : allInt (version_tuple t) = true := hc
    have hv' : allInt (version_tuple v) = true := hv
    obtain ⟨o, ho⟩ := pyCmp_total hv' ht
    rcases parse_constraint_op hp with rfl | rfl | rfl | rfl | rfl | rfl
    · refine ⟨pyTupleEq (version_tuple v) (version_tuple t), ?_⟩
      rw [matches_constraint, hp]
      rfl
    · have he : matches_constraint v c = (pyCmpTuple? (version_tuple v) (version_tuple t)).map
          (fun o => decide (o ≠ Ordering.lt)) := by
        rw [matches_constraint, hp]
        rfl
      rw [he, ho]
      exact ⟨_, rfl⟩
    · have he : matches_constraint v c = (pyCmpTuple? (version_tuple v) (version_tuple t)).map
          (fun o => decide (o ≠ Ordering.gt)) := by
        rw [matches_constraint, hp]
        rfl
      rw [he, ho]
      exact ⟨_, rfl⟩
    · have he : matches_constraint v c = (pyCmpTuple? (version_tuple v) (version_tuple t)).map
          (fun o => decide (o = Ordering.gt)) := by
        rw [matches_constraint, hp]
        rfl
      rw [he, ho]
      exact ⟨_, rfl⟩
    · have he : matches_constraint v c = (pyCmpTuple? (version_tuple v) (version_tuple t)).map
          (fun o => decide (o = Ordering.lt)) := by
        rw [matches_constraint, hp]
        rfl
      rw [he, ho]
      exact ⟨_, rfl⟩
    · have he : matches_constraint v c =
          match pyCmpTuple? (version_tuple v) (version_tuple t) with
          | none => none
          | some Ordering.lt => some false
          | some _ => some (pyEqPart ((version_tuple v).headD (.str ""))
              ((version_tuple t).headD (.str ""))) := by
        rw [matches_constraint, hp]
        rfl
      rw [he, ho]
      cases o
      · exact ⟨false, rfl⟩
      · exact ⟨_, rfl⟩
      · exact ⟨_, rfl⟩

theorem pyFilterM_total {p : String → Option Bool} : ∀ {l : List String},
    (∀ v ∈ l, ∃ b, p v = some b) → ∃ r, pyFilterM p l = some r := by
  intro l
  induction l with
  | nil => exact fun _ => ⟨[], rfl⟩
  | cons v rest ih =>
    intro h
    obtain ⟨b, hb⟩ := h v (List.mem_cons_self v rest)
    obtain ⟨r, hr⟩ := ih fun w hw => h w (List.mem_cons_of_mem v hw)
    refine ⟨if b then v :: r else r, ?_⟩
    simp [pyFilterM, hb, hr]

theorem matches_empty_constraint (v : String) : matches_constraint v "" = some false := by
  rfl

theorem find_version_total {reg : Registry} {name : String} {constraint : Option String}
    (hreg : RegSorted reg) (hok : RootOk constraint) :
    ∃ r, find_version reg name constraint = some r := by
  rw [find_version]
  rcases hd : dget reg name with _ | entry
  · simp only [hd]
    exact ⟨none, rfl⟩
  · simp only [hd]
    by_cases he : entry.versions.isEmpty
    · rw [if_pos he]
      exact ⟨none, rfl⟩
    · rw [if_neg he]
      rcases constraint with _ | c
      · exact ⟨_, rfl⟩
      · rcases hok with hok | hok
        · cases hok
          obtain ⟨r, hr⟩ := @pyFilterM_total (fun v => matches_constraint v "")
            entry.versions (fun v _ => ⟨false, matches_empty_constraint v⟩)
          refine ⟨r.getLast?, ?_⟩
          show Option.map List.getLast?
            (pyFilterM (fun v => matches_constraint v "") entry.versions) = some r.getLast?
          rw [hr]
          rfl
        · have hnum : ∀ v ∈ entry.versions, numericVer v = true := by
            have := (hreg (name, entry) (mem_of_dget_eq_some hd)).2
            intro v hv
            exact List.all_eq_true.mp this v hv
          obtain ⟨r, hr⟩ := @pyFilterM_total (fun v => matches_constraint v c)
            entry.versions (fun v hv => matches_total (hnum v hv) hok)
          refine ⟨r.getLast?, ?_⟩
          show Option.map List.getLast?
            (pyFilterM (fun v => matches_constraint v c) entry.versions) = some r.getLast?
          rw [hr]
          rfl

/-! ### Requirement-map bookkeeping lemmas -/

theorem mem_flatPairs {l : Req} {x : String × String} :
    x ∈ flatPairs l ↔ ∃ e ∈ l, ∃ r ∈ e.2, x = (e.1, r.2) := by
  simp only [flatPairs, List.mem_flatMap, List.mem_map]
  constructor
  · rintro ⟨e, he, r, hr, rfl⟩
    exact ⟨e, he, r, hr, rfl⟩
  · rintro ⟨e, he, r, hr, rfl⟩
    exact ⟨e, he, r, hr, rfl⟩

theorem flatPairs_append (l₁ l₂ : Req) :
    flatPairs (l₁ ++ l₂) = flatPairs l₁ ++ flatPairs l₂ := by
  simp [flatPairs]

theorem pairs_cons (e : String × List (String × String)) (l : Req) :
    pairs (e :: l) = e.2.length + pairs l := by
  simp [pairs, flatPairs]

theorem flatPairs_ensureKey (req : Req) (name : String) :
    flatPairs (ensureKey req name) = flatPairs req := by
  rw [ensureKey]
  by_cases h : (dget req name).isSome
  · rw [if_pos h]
  · rw [if_neg h, flatPairs_append]
    simp [flatPairs]

theorem pairs_ensureKey (req : Req) (name : String) :
    pairs (ensureKey req name) = pairs req := by
  simp [pairs, flatPairs_ensureKey]

theorem dget_append_elem {α : Type} (l : List (String × α)) (e : String × α) (k : String) :
    dget (l ++ [e]) k =
      match dget l k with
      | some v => some v
      | none => if e.1 == k then some e.2 else none := by
  induction l with
  | nil => simp [dget_cons, dget]
  | cons a rest ih =>
    rw [List.cons_append, dget_cons, dget_cons]
    by_cases h : a.1 == k
    · rw [if_pos h, if_pos h]
    · rw [if_neg h, if_neg h, ih]

theorem dget_ensureKey_self (req : Req) (name : String) :
    dget (ensureKey req name) name = some (rowsOf req name) := by
  rw [ensureKey]
  rcases h : dget req name with _ | rows
  · rw [if_neg (by simp [h]), dget_append_elem, h]
    simp [rowsOf, h]
  · rw [if_pos (by simp [h])]
    simp [rowsOf, h]

theorem dget_ensureKey_ne (req : Req) (name k : String) (h : k ≠ name) :
    dget (ensureKey req name) k = dget req k := by
  rw [ensureKey]
  by_cases hs : (dget req name).isSome
  · rw [if_pos hs]
  · rw [if_neg hs, dget_append_elem]
    have hbeq : (name == k) = false := by
      simpa [beq_iff_eq] using fun e => h e.symm
    rcases hd : dget req k with _ | v <;> simp [hbeq]

theorem rowsOf_ensureKey (req : Req) (name : String) :
    rowsOf (ensureKey req name) name = rowsOf req name := by
  simp [rowsOf, dget_ensureKey_self]

theorem mem_dset {α : Type} {l : List (String × α)} {k : String} {v : α} {e : String × α}
    (h : e ∈ dset l k v) : e = (k, v) ∨ e ∈ l := by
  induction l with
  | nil =>
    simp [dset] at h
    exact Or.inl h
  | cons a rest ih =>
    rw [dset_cons] at h
    by_cases ha : a.1 == k
    · rw [if_pos ha] at h
      rcases List.mem_cons.mp h with h | h
      · exact Or.inl h
      · exact Or.inr (List.mem_cons_of_mem a h)
    · rw [if_neg ha] at h
      rcases List.mem_cons.mp h with h | h
      · exact Or.inr (h ▸ List.mem_cons_self a rest)
      · rcases ih h with h | h
        · exact Or.inl h
        · exact Or.inr (List.mem_cons_of_mem a h)

theorem keys_dset_present {α : Type} {l : List (String × α)} {k : String} {w : α}
    (h : dget l k = some w) (v : α) : (dset l k v).map (·.1) = l.map (·.1) := by
  induction l with
  | nil => simp [dget] at h
  | cons a rest ih =>
    rw [dset_cons]
    by_cases ha : a.1 == k
    · have : a.1 = k := by simpa [beq_iff_eq] using ha
      rw [if_pos ha]
      simp [this]
    · rw [dget_cons, if_neg ha] at h
      rw [if_neg ha]
      simp [ih h]

theorem flatPairs_dset_subset {l : Req} {k : String} {v : List (String × String)}
    {x : String × String} (hx : x ∈ flatPairs (dset l k v)) :
    x ∈ flatPairs l ∨ ∃ r ∈ v, x = (k, r.2) := by
  obtain ⟨e, he, r, hr, rfl⟩ := mem_flatPairs.mp hx
  rcases mem_dset he with rfl | he'
  · exact Or.inr ⟨r, hr, rfl⟩
  · exact Or.inl (mem_flatPairs.mpr ⟨e, he', r, hr, rfl⟩)

theorem pairs_dset_grow {l : Req} {k : String} {rows : List (String × String)}
    (h : dget l k = some rows) (row : String × String) :
    pairs (dset l k (rows ++ [row])) = pairs l + 1 := by
  induction l with
  | nil => simp [dget] at h
  | cons a rest ih =>
    rw [dset_cons]
    by_cases ha : a.1 == k
    · rw [dget_cons, if_pos ha] at h
      cases h
      rw [if_pos ha, pairs_cons, pairs_cons]
      simp
      omega
    · rw [dget_cons, if_neg ha] at h
      rw [if_neg ha, pairs_cons, pairs_cons, ih h]
      omega

theorem memoHit_false_iff {req : Req} {d t : String} :
    memoHit req d (some t) = false ↔ t ∉ textsOf req d := by
  simp only [memoHit, List.any_eq_false, textsOf, List.mem_map, beq_iff_eq]
  constructor
  · rintro h ⟨r, hr, rfl⟩
    exact h r hr rfl
  · intro h r hr he
    exact h ⟨r, hr, he⟩

theorem flatPairs_nodup {req : Req} (h1 : (req.map (·.1)).Nodup)
    (h2 : ∀ e ∈ req, ((e.2.map (·.2)) : List String).Nodup) : (flatPairs req).Nodup := by
  induction req with
  | nil => simp [flatPairs]
  | cons e rest ih =>
    simp only [List.map_cons, List.nodup_cons] at h1
    have hhead : (e.2.map fun r => (e.1, r.2)).Nodup := by
      have : (e.2.map fun r => (e.1, r.2)) = (e.2.map (·.2)).map (fun t => (e.1, t)) := by
        rw [List.map_map]
        rfl
      rw [this]
      exact (h2 e (List.mem_cons_self e rest)).map
        (fun a b hab => by simpa using hab)
    have hrest : (flatPairs rest).Nodup :=
      ih h1.2 fun e' he' => h2 e' (List.mem_cons_of_mem e he')
    have hflat : flatPairs (e :: rest) = (e.2.map fun r => (e.1, r.2)) ++ flatPairs rest := by
      simp [flatPairs]
    rw [hflat, List.nodup_append]
    refine ⟨hhead, hrest, ?_⟩
    intro x hx hx'
    obtain ⟨r, _, rfl⟩ := List.mem_map.mp hx
    obtain ⟨e', he', r', _, he⟩ := mem_flatPairs.mp hx'
    apply h1.1
    have : e.1 = e'.1 := (Prod.ext_iff.mp he).1
    rw [this]
    exact List.mem_map.mpr ⟨e', he', rfl⟩

theorem pairs_le_of_inv {U : List (String × String)} {req : Req} (h : ReqInv U req) :
    pairs req ≤ U.length :=
  (List.subperm_of_subset (flatPairs_nodup h.1 h.2.1) h.2.2).length_le

theorem textsOf_ensureKey (req : Req) (name k : String) :
    textsOf (ensureKey req name) k = textsOf req k := by
  by_cases hk : k = name
  · subst hk
    simp [textsOf, rowsOf_ensureKey]
  · simp [textsOf, rowsOf, dget_ensureKey_ne req name k hk]

theorem pairs_recordRow_truthy {req : Req} {name t : String} (ht : t ≠ "")
    (requirer : String) :
    pairs (recordRow req name (some t) requirer) = pairs req + 1 := by
  rw [recordRow, if_neg (by simpa using ht), rowsOf_ensureKey,
    pairs_dset_grow (dget_ensureKey_self req name) _, pairs_ensureKey]

theorem pairs_recordRow_falsy {req : Req} {name : String} {c : Option String}
    (hc : c = none ∨ c = some "") (requirer : String) :
    pairs (recordRow req name c requirer) = pairs req := by
  rcases hc with rfl | rfl
  · rw [recordRow, pairs_ensureKey]
  · rw [recordRow, if_pos (by simp), pairs_ensureKey]

theorem textsOf_recordRow_truthy {req : Req} {name t : String} (ht : t ≠ "")
    (requirer : String) :
    textsOf (recordRow req name (some t) requirer) name = textsOf req name ++ [t] := by
  rw [recordRow, if_neg (by simpa using ht)]
  simp [textsOf, rowsOf, dget_dset_self, dget_ensureKey_self]

theorem reqInv_ensureKey {U : List (String × String)} {req : Req} (h : ReqInv U req)
    (name : String) : ReqInv U (ensureKey req name) := by
  rw [ensureKey]
  by_cases hs : (dget req name).isSome
  · rw [if_pos hs]
    exact h
  · rw [if_neg hs]
    obtain ⟨h1, h2, h3⟩ := h
    refine ⟨?_, ?_, ?_⟩
    · have hnot : name ∉ req.map (·.1) := by
        rw [← dget_none_iff]
        cases hd : dget req name
        · rfl
        · rw [hd] at hs
          simp at hs
      simp only [List.map_append, List.map_cons, List.map_nil]
      rw [List.nodup_append]
      refine ⟨h1, List.nodup_singleton _, ?_⟩
      intro x hx hx'
      rw [List.mem_singleton] at hx'
      subst hx'
      exact hnot hx
    · intro e he
      rcases List.mem_append.mp he with he | he
      · exact h2 e he
      · rcases List.mem_singleton.mp he with rfl
        simp
    · rw [flatPairs_append]
      simpa [flatPairs] using h3

theorem reqInv_recordRow {U : List (String × String)} {req : Req} {name : String}
    (hInv : ReqInv U req) (c : Option String) (requirer : String)
    (hc : match c with
      | none => True
      | some t => t = "" ∨ (t ∉ textsOf req name ∧ (name, t) ∈ U)) :
    ReqInv U (recordRow req name c requirer) := by
  rcases c with _ | t
  · exact reqInv_ensureKey hInv name
  · by_cases ht : t = ""
    · subst ht
      rw [recordRow, if_pos (by simp)]
      exact reqInv_ensureKey hInv name
    · rcases hc with rfl | ⟨hnew, hU⟩
      · exact absurd rfl ht
      · have hEns := reqInv_ensureKey hInv name
        rw [recordRow, if_neg (by simpa using ht)]
        obtain ⟨h1, h2, h3⟩ := hEns
        have hself := dget_ensureKey_self req name
        have hmemEntry : (name, rowsOf req name) ∈ ensureKey req name :=
          mem_of_dget_eq_some hself
        refine ⟨?_, ?_, ?_⟩
        · rw [keys_dset_present hself]
          exact h1
        · intro e he
          rcases mem_dset he with rfl | he'
          · simp only [rowsOf_ensureKey, List.map_append, List.map_cons, List.map_nil]
            rw [List.nodup_append]
            refine ⟨h2 _ hmemEntry, List.nodup_singleton _, ?_⟩
            intro x hx
            simp only [List.mem_singleton]
            rintro rfl
            exact hnew hx
          · exact h2 e he'
        · intro x hx
          rcases flatPairs_dset_subset hx with hx' | ⟨r, hr, rfl⟩
          · exact h3 hx'
          · rcases List.mem_append.mp hr with hr' | hr'
            · rw [rowsOf_ensureKey] at hr'
              exact h3 (mem_flatPairs.mpr ⟨(name, rowsOf req name), hmemEntry, r, hr', rfl⟩)
            · rcases List.mem_singleton.mp hr' with rfl
              exact hU

/-! ### Monotonicity, invariance and termination of the collection walk -/

theorem collectFuel_succ (reg : Registry) (fuel : Nat) (name : String)
    (constraint : Option String) (req : Req) (requirer : String) :
    collectFuel reg (fuel + 1) name constraint req requirer =
      match dget reg name with
      | none => some (recordRow req name constraint requirer)
      | some entry =>
        match find_version reg name constraint with
        | none => none
        | some none => some (recordRow req name constraint requirer)
        | some (some version) =>
          collectDeps (fun d dc r => collectFuel reg fuel d dc r name)
            (depsAt entry version) (recordRow req name constraint requirer) := by
  rfl

theorem pairs_le_recordRow (req : Req) (name : String) (c : Option String)
    (requirer : String) : pairs req ≤ pairs (recordRow req name c requirer) := by
  rcases c with _ | t
  · rw [pairs_recordRow_falsy (Or.inl rfl)]
  · by_cases ht : t = ""
    · subst ht
      rw [pairs_recordRow_falsy (Or.inr rfl)]
    · rw [pairs_recordRow_truthy ht]
      omega

theorem collectDeps_mono_of (step : String → Option String → Req → Option Req)
    (hstep : ∀ d dc r r', step d dc r = some r' → pairs r ≤ pairs r') :
    ∀ (ds : List (String × Option String)) (req r' : Req),
      collectDeps step ds req = some r' → pairs req ≤ pairs r' := by
  intro ds
  induction ds with
  | nil =>
    intro req r' h
    rw [collectDeps] at h
    cases h
    exact le_refl _
  | cons e rest ih =>
    obtain ⟨d, dc⟩ := e
    intro req r' h
    rw [collectDeps] at h
    cases hm : memoHit req d dc
    · simp only [hm] at h
      rcases hs : step d dc req with _ | r₁
      · rw [hs] at h
        exact absurd h (by simp)
      · rw [hs] at h
        exact le_trans (hstep d dc req r₁ hs) (ih r₁ r' h)
    · simp only [hm] at h
      exact ih req r' h

theorem collect_mono {reg : Registry} :
    ∀ (f : Nat) (name : String) (c : Option String) (req : Req) (requirer : String) (r' : Req),
      collectFuel reg f name c req requirer = some r' → pairs req ≤ pairs r' := by
  intro f
  induction f with
  | zero =>
    intro name c req requirer r' h
    exact absurd h (by simp [collectFuel])
  | succ f ih =>
    intro name c req requirer r' h
    rw [collectFuel_succ] at h
    have hbase := pairs_le_recordRow req name c requirer
    rcases hd : dget reg name with _ | entry
    · simp only [hd] at h
      cases h
      exact hbase
    · simp only [hd] at h
      rcases hf : find_version reg name c with _ | ov
      · simp only [hf] at h
        exact absurd h (by simp)
      · simp only [hf] at h
        rcases ov with _ | version
        · cases h
          exact hbase
        · exact le_trans hbase
            (collectDeps_mono_of _ (fun d dc r r₁ h' => ih d dc r name r₁ h') _ _ _ h)

theorem collectDeps_inv_of {U : List (String × String)}
    (step : String → Option String → Req → Option Req)
    (hstep : ∀ d dc r r', ReqInv U r →
      (match dc with
       | none => True
       | some t => t = "" ∨ (t ∉ textsOf r d ∧ (d, t) ∈ U)) →
      step d dc r = some r' → ReqInv U r') :
    ∀ (ds : List (String × Option String)),
      (∀ e ∈ ds, ∀ t, e.2 = some t → t ≠ "" → (e.1, t) ∈ U) →
      ∀ (req r' : Req), ReqInv U req → collectDeps step ds req = some r' → ReqInv U r' := by
  intro ds
  induction ds with
  | nil =>
    intro _ req r' hInv h
    rw [collectDeps] at h
    cases h
    exact hInv
  | cons e rest ih =>
    obtain ⟨d, dc⟩ := e
    intro hds req r' hInv h
    have hds' : ∀ e ∈ rest, ∀ t, e.2 = some t → t ≠ "" → (e.1, t) ∈ U :=
      fun e he => hds e (List.mem_cons_of_mem _ he)
    rw [collectDeps] at h
    cases hm : memoHit req d dc
    · simp only [hm] at h
      rcases hs : step d dc req with _ | r₁
      · rw [hs] at h
        exact absurd h (by simp)
      · rw [hs] at h
        refine ih hds' r₁ r' (hstep d dc req r₁ hInv ?_ hs) h
        rcases dc with _ | t
        · trivial
        · by_cases ht : t = ""
          · exact Or.inl ht
          · exact Or.inr ⟨memoHit_false_iff.mp hm,
              hds (d, some t) (List.mem_cons_self _ _) t rfl ht⟩
    · simp only [hm] at h
      exact ih hds' req r' hInv h

theorem collect_inv_fuel {reg : Registry} {U : List (String × String)}
    (hU : EdgesInUniverse reg U) :
    ∀ (f : Nat) (name : String) (c : Option String) (req : Req) (requirer : String) (r' : Req),
      ReqInv U req →
      (match c with
       | none => True
       | some t => t = "" ∨ (t ∉ textsOf req name ∧ (name, t) ∈ U)) →
      collectFuel reg f name c req requirer = some r' → ReqInv U r' := by
  intro f
  induction f with
  | zero =>
    intro name c req requirer r' _ _ h
    exact absurd h (by simp [collectFuel])
  | succ f ih =>
    intro name c req requirer r' hInv hc h
    rw [collectFuel_succ] at h
    have hInv2 : ReqInv U (recordRow req name c requirer) :=
      reqInv_recordRow hInv c requirer hc
    rcases hd : dget reg name with _ | entry
    · simp only [hd] at h
      cases h
      exact hInv2
    · simp only [hd] at h
      rcases hf : find_version reg name c with _ | ov
      · simp only [hf] at h
        exact absurd h (by simp)
      · simp only [hf] at h
        rcases ov with _ | version
        · cases h
          exact hInv2
        · have hds : ∀ e ∈ depsAt entry version, ∀ t, e.2 = some t → t ≠ "" →
              (e.1, t) ∈ U := by
            intro e he t het hne
            rw [depsAt] at he
            rcases hdd : dget entry.dependencies version with _ | ds'
            · rw [hdd] at he
              simp at he
            · rw [hdd] at he
              exact hU (name, entry) (mem_of_dget_eq_some hd) (version, ds')
                (mem_of_dget_eq_some hdd) e (by simpa using he) t het hne
          exact collectDeps_inv_of _
            (fun d dc r r₁ hInvr hcond hs => ih d dc r name r₁ hInvr hcond hs)
            _ hds _ _ hInv2 h

theorem pyFilterM_matches_empty (l : List String) :
    pyFilterM (fun v => matches_constraint v "") l = some [] := by
  induction l with
  | nil => rfl
  | cons v rest ih =>
    rw [pyFilterM, matches_empty_constraint, ih]
    rfl

theorem find_version_empty_str {reg : Registry} {name : String} {entry : RegEntry}
    (hd : dget reg name = some entry) :
    find_version reg name (some "") = some none := by
  rw [find_version]
  simp only [hd]
  by_cases he : entry.versions.isEmpty
  · rw [if_pos he]
  · rw [if_neg he]
    show Option.map List.getLast?
      (pyFilterM (fun v => matches_constraint v "") entry.versions) = some none
    rw [pyFilterM_matches_empty]
    rfl

theorem collect_term {reg : Registry} {U : List (String × String)}
    (hreg : RegSorted reg) (hedges : EdgesOk reg) (hU : EdgesInUniverse reg U) :
    ∀ (f : Nat) (name : String) (c : Option String) (req : Req) (requirer : String),
      ReqInv U req →
      (match c with
       | none => True
       | some t => t = "" ∨ (t ≠ "" ∧ constrOk t = true ∧ t ∉ textsOf req name ∧
          (name, t) ∈ U)) →
      (match c with
       | none => U.length + 3 ≤ f + pairs req
       | some t => if t = "" then 1 ≤ f else U.length + 2 ≤ f + pairs req) →
      collectFuel reg f name c req requirer ≠ none := by
  intro f
  induction f with
  | zero =>
    intro name c req requirer hInv hc hb
    exfalso
    have hle := pairs_le_of_inv hInv
    rcases c with _ | t
    · have hb' : U.length + 3 ≤ 0 + pairs req := hb
      omega
    · have hb' : if t = "" then 1 ≤ 0 else U.length + 2 ≤ 0 + pairs req := hb
      by_cases ht : t = ""
      · rw [if_pos ht] at hb'
        omega
      · rw [if_neg ht] at hb'
        omega
  | succ f ih =>
    intro name c req requirer hInv hc hb
    rw [collectFuel_succ]
    have hInv2 : ReqInv U (recordRow req name c requirer) := by
      apply reqInv_recordRow hInv c requirer
      rcases c with _ | t
      · trivial
      · rcases hc with hc | ⟨_, _, hnew, hUc⟩
        · exact Or.inl hc
        · exact Or.inr ⟨hnew, hUc⟩
    rcases hd : dget reg name with _ | entry
    · simp only [hd]
      simp
    · simp only [hd]
      have hok : RootOk c := by
        rcases c with _ | t
        · trivial
        · rcases hc with hc | ⟨_, hcok, _, _⟩
          · exact Or.inl hc
          · exact Or.inr hcok
      obtain ⟨ov, hov⟩ := @find_version_total reg name c hreg hok
      rw [hov]
      rcases ov with _ | version
      · simp
      · have hcne : c ≠ some "" := by
          intro hce
          subst hce
          rw [find_version_empty_str hd] at hov
          cases hov
        have hpair2 : U.length + 2 ≤ f + pairs (recordRow req name c requirer) := by
          rcases c with _ | t
          · have hb' : U.length + 3 ≤ (f + 1) + pairs req := hb
            rw [pairs_recordRow_falsy (Or.inl rfl)]
            omega
          · have ht : t ≠ "" := fun he => hcne (by rw [he])
            have hb' : if t = "" then 1 ≤ f + 1 else U.length + 2 ≤ (f + 1) + pairs req := hb
            rw [if_neg ht] at hb'
            rw [pairs_recordRow_truthy ht]
            omega
        have hds : ∀ e ∈ depsAt entry version,
            ∃ t, e.2 = some t ∧ t ≠ "" ∧ constrOk t = true ∧ (e.1, t) ∈ U := by
          intro e he
          have heok : edgeOk e := by
            rw [depsAt] at he
            rcases hdd : dget entry.dependencies version with _ | ds'
            · rw [hdd] at he
              simp at he
            · rw [hdd] at he
              exact hedges (name, entry) (mem_of_dget_eq_some hd) (version, ds')
                (mem_of_dget_eq_some hdd) e (by simpa using he)
          rcases e with ⟨d, _ | t⟩
          · exact absurd heok (fun h => h)
          · obtain ⟨htne, htok⟩ := heok
            refine ⟨t, rfl, htne, htok, ?_⟩
            rw [depsAt] at he
            rcases hdd : dget entry.dependencies version with _ | ds'
            · rw [hdd] at he
              simp at he
            · rw [hdd] at he
              exact hU (name, entry) (mem_of_dget_eq_some hd) (version, ds')
                (mem_of_dget_eq_some hdd) (d, some t) (by simpa using he) t rfl htne
        have hfold : ∀ (ds : List (String × Option String)),
            (∀ e ∈ ds, ∃ t, e.2 = some t ∧ t ≠ "" ∧ constrOk t = true ∧ (e.1, t) ∈ U) →
            ∀ r, ReqInv U r → U.length + 2 ≤ f + pairs r →
            collectDeps (fun d dc r => collectFuel reg f d dc r name) ds r ≠ none := by
          intro ds
          induction ds with
          | nil =>
            intro _ r _ _
            rw [collectDeps]
            simp
          | cons e rest ihds =>
            intro hok r hInvr hbr
            obtain ⟨t, het, htne, htok, htU⟩ := hok e (List.mem_cons_self _ _)
            obtain ⟨d, dc⟩ := e
            simp only at het
            subst het
            intro h
            rw [collectDeps] at h
            cases hm : memoHit r d (some t)
            · simp only [hm] at h
              have hnew : t ∉ textsOf r d := memoHit_false_iff.mp hm
              have hsub := ih d (some t) r name hInvr
                (Or.inr ⟨htne, htok, hnew, htU⟩)
                (by
                  show if t = "" then 1 ≤ f else U.length + 2 ≤ f + pairs r
                  rw [if_neg htne]
                  exact hbr)
              rcases hs : collectFuel reg f d (some t) r name with _ | r₁
              · exact hsub hs
              · rw [hs] at h
                have hInv₁ : ReqInv U r₁ :=
                  collect_inv_fuel hU f d (some t) r name r₁ hInvr
                    (Or.inr ⟨hnew, htU⟩) hs
                have hb₁ : U.length + 2 ≤ f + pairs r₁ := by
                  have := collect_mono f d (some t) r name r₁ hs
                  omega
                exact ihds (fun e he => hok e (List.mem_cons_of_mem _ he)) r₁ hInv₁ hb₁ h
            · simp only [hm] at h
              exact ihds (fun e he => hok e (List.mem_cons_of_mem _ he)) r hInvr hbr h
        exact hfold (depsAt entry version) hds (recordRow req name c requirer) hInv2 hpair2

theorem edges_in_pairUniverse (reg : Registry) (root : String) (c₀ : Option String) :
    EdgesInUniverse reg (pairUniverse reg root c₀) := by
  intro p hp dep hdep e he t het hne
  rw [pairUniverse.eq_def]
  apply List.mem_append_left
  rw [List.mem_flatMap]
  refine ⟨p, hp, ?_⟩
  rw [List.mem_flatMap]
  refine ⟨dep, hdep, ?_⟩
  rw [List.mem_filterMap]
  refine ⟨e, he, ?_⟩
  rw [het]
  simp [hne]

theorem reqInv_nil (U : List (String × String)) : ReqInv U [] :=
  ⟨List.nodup_nil, by simp, by simp [flatPairs]⟩

theorem collect_root_terminates (reg : Registry) (root : String) (c₀ : Option String)
    (hreg : RegSorted reg) (hedges : EdgesOk reg) (hok : RootOk c₀) :
    ∃ fC req, collectFuel reg fC root c₀ [] "root" = some req := by
  have hU := edges_in_pairUniverse reg root c₀
  have hterm := collect_term hreg hedges hU
  rcases c₀ with _ | c
  · have h := hterm ((pairUniverse reg root none).length + 3) root none [] "root"
      (reqInv_nil _) trivial (by simp [pairs, flatPairs])
    rcases he : collectFuel reg ((pairUniverse reg root none).length + 3) root none [] "root"
        with _ | req
    · exact absurd he h
    · exact ⟨_, req, he⟩
  · by_cases hc : c = ""
    · subst hc
      have h := hterm 1 root (some "") [] "root" (reqInv_nil _) (Or.inl rfl)
        (by
          show if ("" : String) = "" then 1 ≤ 1
            else (pairUniverse reg root (some "")).length + 2 ≤ 1 + pairs []
          rw [if_pos rfl])
      rcases he : collectFuel reg 1 root (some "") [] "root" with _ | req
      · exact absurd he h
      · exact ⟨1, req, he⟩
    · have hcok : constrOk c = true := by
        rcases hok with hok | hok
        · exact absurd hok hc
        · exact hok
      have hmem : (root, c) ∈ pairUniverse reg root (some c) := by
        rw [pairUniverse.eq_def]
        apply List.mem_append_right
        simp [hc]
      have h := hterm ((pairUniverse reg root (some c)).length + 2) root (some c) [] "root"
        (reqInv_nil _) (Or.inr ⟨hc, hcok, by simp [textsOf, rowsOf, dget], hmem⟩)
        (by
          show if c = "" then 1 ≤ (pairUniverse reg root (some c)).length + 2
            else (pairUniverse reg root (some c)).length + 2 ≤
              (pairUniverse reg root (some c)).length + 2 + pairs []
          rw [if_neg hc]
          simp [pairs, flatPairs])
      rcases he : collectFuel reg ((pairUniverse reg root (some c)).length + 2) root (some c)
          [] "root" with _ | req
      · exact absurd he h
      · exact ⟨_, req, he⟩

/-! ### Order theory on numeric tuples -/

theorem pyCmp_swap {a : List Part} : ∀ {b : List Part},
    allInt a = true → allInt b = true →
    pyCmpTuple? b a = (pyCmpTuple? a b).map Ordering.swap := by
  induction a with
  | nil =>
    intro b _ _
    cases b with
    | nil => rfl
    | cons y ys => rfl
  | cons x xs ih =>
    intro b ha hb
    cases b with
    | nil => rfl
    | cons y ys =>
      simp only [allInt, List.all_cons, Bool.and_eq_true] at ha hb
      cases x with
      | str s => simp at ha
      | int i =>
        cases y with
        | str s => simp at hb
        | int j =>
          rw [pyCmpTuple?, pyCmpTuple?]
          by_cases he : pyEqPart (.int i) (.int j) = true
          · have he' : pyEqPart (.int j) (.int i) = true := by
              rw [pyEqPart_iff] at he ⊢
              exact he.symm
            rw [if_pos he', if_pos he]
            exact ih ha.2 hb.2
          · have he' : ¬ pyEqPart (.int j) (.int i) = true := by
              intro h
              apply he
              rw [pyEqPart_iff] at h ⊢
              exact h.symm
            rw [if_neg he', if_neg he]
            have hij : i ≠ j := fun h => he (by rw [pyEqPart_iff, h])
            rw [pyLtPart?, pyLtPart?]
            by_cases hl : i < j
            · have hl' : ¬ j < i := by omega
              simp only [decide_eq_true hl, decide_eq_false hl']
              rfl
            · have hl' : j < i := by omega
              have hl'' : ¬ i < j := hl
              simp only [decide_eq_true hl', decide_eq_false hl'']
              rfl

theorem tupLe_total {a b : List Part} (ha : allInt a = true) (hb : allInt b = true) :
    tupLe a b = true ∨ tupLe b a = true := by
  obtain ⟨o, ho⟩ := pyCmp_total ha hb
  have hswap : pyCmpTuple? b a = some o.swap := by
    rw [pyCmp_swap ha hb, ho]
    rfl
  cases o
  · exact Or.inl (by rw [tupLe, ho])
  · exact Or.inl (by rw [tupLe, ho])
  · exact Or.inr (by rw [tupLe, hswap]; rfl)

theorem tupLe_antisymm_tuples {a b : List Part} (ha : allInt a = true)
    (hb : allInt b = true) (h₁ : tupLe a b = true) (h₂ : tupLe b a = true) : a = b := by
  obtain ⟨o, ho⟩ := pyCmp_total ha hb
  have hswap : pyCmpTuple? b a = some o.swap := by
    rw [pyCmp_swap ha hb, ho]
    rfl
  cases o
  · rw [tupLe, hswap] at h₂
    exact Bool.noConfusion h₂
  · exact pyCmp_eq_iff.mp ho
  · rw [tupLe, ho] at h₁
    exact Bool.noConfusion h₁

theorem head_le_of_tupLe {a b : List Part} (ha : allInt a = true) (hb : allInt b = true)
    (hna : a ≠ []) (hnb : b ≠ []) (h : tupLe a b = true) : headInt a ≤ headInt b := by
  cases a with
  | nil => exact absurd rfl hna
  | cons x xs =>
    cases b with
    | nil => exact absurd rfl hnb
    | cons y ys =>
      simp only [allInt, List.all_cons, Bool.and_eq_true] at ha hb
      cases x with
      | str s => simp at ha
      | int i =>
        cases y with
        | str s => simp at hb
        | int j =>
          show i ≤ j
          rw [tupLe, pyCmpTuple?] at h
          by_cases he : pyEqPart (.int i) (.int j) = true
          · have : (Part.int i) = (Part.int j) := (pyEqPart_iff _ _).mp he
            have : i = j := Part.int.inj this
            omega
          · rw [if_neg he, pyLtPart?] at h
            by_cases hl : i < j
            · omega
            · rw [decide_eq_false hl] at h
              exact absurd h (by decide)

theorem headD_eq_int {a : List Part} (ha : allInt a = true) (hna : a ≠ []) :
    a.headD (.str "") = .int (headInt a) := by
  cases a with
  | nil => exact absurd rfl hna
  | cons x xs =>
    simp only [allInt, List.all_cons, Bool.and_eq_true] at ha
    cases x with
    | str s => simp at ha
    | int i => rfl

theorem version_tuple_ne_nil (s : String) : version_tuple s ≠ [] := by
  cases hs : splitDots s.data with
  | nil => exact absurd hs (splitDots_ne_nil s.data)
  | cons p ps =>
    rw [version_tuple, hs]
    simp

theorem strict_tuple_inj {l : List String} (hs : VersionsStrict l) :
    ∀ u ∈ l, ∀ w ∈ l, version_tuple u = version_tuple w → u = w := by
  induction l with
  | nil =>
    intro u hu w hw h
    simp at hu
  | cons x xs ih =>
    rw [VersionsStrict, List.pairwise_cons] at hs
    obtain ⟨hx, hxs⟩ := hs
    intro u hu w hw h
    rcases List.mem_cons.mp hu with rfl | hu'
    · rcases List.mem_cons.mp hw with rfl | hw'
      · rfl
      · exfalso
        have hf := hx w hw'
        rw [← h, tupLe_refl] at hf
        exact Bool.noConfusion hf
    · rcases List.mem_cons.mp hw with rfl | hw'
      · exfalso
        have hf := hx u hu'
        rw [h, tupLe_refl] at hf
        exact Bool.noConfusion hf
      · exact ih hxs u hu' w hw' h

/-! ### Per-operator evaluation of `_matches_constraint` on numeric input -/

theorem matches_eval_eq {v c t : String} (hp : parse_constraint c = some ("==", t)) :
    matches_constraint v c = some true ↔ version_tuple v = version_tuple t := by
  have he : matches_constraint v c =
      some (pyTupleEq (version_tuple v) (version_tuple t)) := by
    rw [matches_constraint, hp]
    rfl
  rw [he]
  constructor
  · intro h
    exact (pyTupleEq_iff _ _).mp (Option.some.inj h)
  · intro h
    rw [(pyTupleEq_iff _ _).mpr h]

theorem matches_eval_ge {v c t : String} (hp : parse_constraint c = some (">=", t))
    (hv : numericVer v = true) (ht : allInt (version_tuple t) = true) :
    (matches_constraint v c = some true ↔
      tupLe (version_tuple t) (version_tuple v) = true) := by
  have he : matches_constraint v c = (pyCmpTuple? (version_tuple v) (version_tuple t)).map
      (fun o => decide (o ≠ Ordering.lt)) := by
    rw [matches_constraint, hp]
    rfl
  obtain ⟨o, ho⟩ := pyCmp_total hv ht
  have hswap : pyCmpTuple? (version_tuple t) (version_tuple v) = some o.swap := by
    rw [pyCmp_swap hv ht, ho]
    rfl
  rw [he, ho, tupLe, hswap]
  cases o <;> decide

theorem matches_eval_le {v c t : String} (hp : parse_constraint c = some ("<=", t))
    (hv : numericVer v = true) (ht : allInt (version_tuple t) = true) :
    (matches_constraint v c = some true ↔
      tupLe (version_tuple v) (version_tuple t) = true) := by
  have he : matches_constraint v c = (pyCmpTuple? (version_tuple v) (version_tuple t)).map
      (fun o => decide (o ≠ Ordering.gt)) := by
    rw [matches_constraint, hp]
    rfl
  obtain ⟨o, ho⟩ := pyCmp_total hv ht
  rw [he, ho, tupLe, ho]
  cases o <;> decide

theorem matches_eval_gt {v c t : String} (hp : parse_constraint c = some (">", t))
    (hv : numericVer v = true) (ht : allInt (version_tuple t) = true) :
    (matches_constraint v c = some true ↔
      tupLe (version_tuple v) (version_tuple t) = false) := by
  have he : matches_constraint v c = (pyCmpTuple? (version_tuple v) (version_tuple t)).map
      (fun o => decide (o = Ordering.gt)) := by
    rw [matches_constraint, hp]
    rfl
  obtain ⟨o, ho⟩ := pyCmp_total hv ht
  rw [he, ho, tupLe, ho]
  cases o <;> decide

theorem matches_eval_lt {v c t : String} (hp : parse_constraint c = some ("<", t))
    (hv : numericVer v = true) (ht : allInt (version_tuple t) = true) :
    (matches_constraint v c = some true ↔
      tupLe (version_tuple t) (version_tuple v) = false) := by
  have he : matches_constraint v c = (pyCmpTuple? (version_tuple v) (version_tuple t)).map
      (fun o => decide (o = Ordering.lt)) := by
    rw [matches_constraint, hp]
    rfl
  obtain ⟨o, ho⟩ := pyCmp_total hv ht
  have hswap : pyCmpTuple? (version_tuple t) (version_tuple v) = some o.swap := by
    rw [pyCmp_swap hv ht, ho]
    rfl
  rw [he, ho, tupLe, hswap]
  cases o <;> decide

theorem matches_eval_tilde {v c t : String} (hp : parse_constraint c = some ("~=", t))
    (hv : numericVer v = true) (ht : allInt (version_tuple t) = true) :
    (matches_constraint v c = some true ↔
      (tupLe (version_tuple t) (version_tuple v) = true ∧
        pyEqPart ((version_tuple v).headD (.str ""))
          ((version_tuple t).headD (.str "")) = true)) := by
  have he : matches_constraint v c =
      match pyCmpTuple? (version_tuple v) (version_tuple t) with
      | none => none
      | some Ordering.lt => some false
      | some _ => some (pyEqPart ((version_tuple v).headD (.str ""))
          ((version_tuple t).headD (.str ""))) := by
    rw [matches_constraint, hp]
    rfl
  obtain ⟨o, ho⟩ := pyCmp_total hv ht
  have hswap : pyCmpTuple? (version_tuple t) (version_tuple v) = some o.swap := by
    rw [pyCmp_swap hv ht, ho]
    rfl
  rw [he, ho, tupLe, hswap]
  cases o
  · constructor
    · intro h
      have h' : some false = some true := h
      exact absurd h' (by decide)
    · rintro ⟨h1, h2⟩
      exact absurd h1 (by decide)
  · constructor
    · intro h
      have h' : some (pyEqPart ((version_tuple v).headD (.str ""))
          ((version_tuple t).headD (.str ""))) = some true := h
      exact ⟨rfl, Option.some.inj h'⟩
    · rintro ⟨h1, h2⟩
      show some (pyEqPart ((version_tuple v).headD (.str ""))
          ((version_tuple t).headD (.str ""))) = some true
      rw [h2]
  · constructor
    · intro h
      have h' : some (pyEqPart ((version_tuple v).headD (.str ""))
          ((version_tuple t).headD (.str ""))) = some true := h
      exact ⟨rfl, Option.some.inj h'⟩
    · rintro ⟨h1, h2⟩
      show some (pyEqPart ((version_tuple v).headD (.str ""))
          ((version_tuple t).headD (.str ""))) = some true
      rw [h2]

/-- Between two numeric versions that satisfy a well-formed constraint,
every numeric version also satisfies it: the satisfaction set of each
operator is order-convex. -/
theorem sat_convex {v₁ v₂ v₃ c : String}
    (h₁ : numericVer v₁ = true) (h₂ : numericVer v₂ = true) (h₃ : numericVer v₃ = true)
    (hc : constrOk c = true)
    (h12 : tupLe (version_tuple v₁) (version_tuple v₂) = true)
    (h23 : tupLe (version_tuple v₂) (version_tuple v₃) = true)
    (hs₁ : matches_constraint v₁ c = some true)
    (hs₃ : matches_constraint v₃ c = some true) :
    matches_constraint v₂ c = some true := by
  rcases hp : parse_constraint c with _ | ⟨op, t⟩
  · rw [constrOk, hp] at hc
    cases hc
  · rw [constrOk, hp] at hc
    have ht : allInt (version_tuple t) = true := hc
    rcases parse_constraint_op hp with rfl | rfl | rfl | rfl | rfl | rfl
    · have e₁ := (matches_eval_eq hp).mp hs₁
      have e₃ := (matches_eval_eq hp).mp hs₃
      apply (matches_eval_eq hp).mpr
      have h23' : tupLe (version_tuple v₂) (version_tuple v₁) = true := by
        rw [e₁, ← e₃]
        exact h23
      exact (tupLe_antisymm_tuples h₂ h₁ h23' h12).trans e₁
    · have e₁ := (matches_eval_ge hp h₁ ht).mp hs₁
      exact (matches_eval_ge hp h₂ ht).mpr (tupLe_trans e₁ h12)
    · have e₃ := (matches_eval_le hp h₃ ht).mp hs₃
      exact (matches_eval_le hp h₂ ht).mpr (tupLe_trans h23 e₃)
    · have e₁ := (matches_eval_gt hp h₁ ht).mp hs₁
      apply (matches_eval_gt hp h₂ ht).mpr
      cases htest : tupLe (version_tuple v₂) (version_tuple t)
      · rfl
      · exfalso
        rw [tupLe_trans h12 htest] at e₁
        exact Bool.noConfusion e₁
    · have e₃ := (matches_eval_lt hp h₃ ht).mp hs₃
      apply (matches_eval_lt hp h₂ ht).mpr
      cases htest : tupLe (version_tuple t) (version_tuple v₂)
      · rfl
      · exfalso
        rw [tupLe_trans htest h23] at e₃
        exact Bool.noConfusion e₃
    · obtain ⟨g₁, hh₁⟩ := (matches_eval_tilde hp h₁ ht).mp hs₁
      obtain ⟨g₃, hh₃⟩ := (matches_eval_tilde hp h₃ ht).mp hs₃
      apply (matches_eval_tilde hp h₂ ht).mpr
      refine ⟨tupLe_trans g₁ h12, ?_⟩
      have hn₁ := version_tuple_ne_nil v₁
      have hn₂ := version_tuple_ne_nil v₂
      have hn₃ := version_tuple_ne_nil v₃
      have hnt := version_tuple_ne_nil t
      rw [headD_eq_int h₁ hn₁, headD_eq_int ht hnt] at hh₁
      rw [headD_eq_int h₃ hn₃, headD_eq_int ht hnt] at hh₃
      rw [headD_eq_int h₂ hn₂, headD_eq_int ht hnt]
      have hi₁ : headInt (version_tuple v₁) = headInt (version_tuple t) :=
        Part.int.inj ((pyEqPart_iff _ _).mp hh₁)
      have hi₃ : headInt (version_tuple v₃) = headInt (version_tuple t) :=
        Part.int.inj ((pyEqPart_iff _ _).mp hh₃)
      have l12 := head_le_of_tupLe h₁ h₂ hn₁ hn₂ h12
      have l23 := head_le_of_tupLe h₂ h₃ hn₂ hn₃ h23
      have hi₂ : headInt (version_tuple v₂) = headInt (version_tuple t) := by omega
      rw [hi₂]
      exact pyEqPart_self _

/-! ### Totality of version selection on well-formed input -/

theorem satAll?_total {v : String} {cs : List String} (hv : numericVer v = true)
    (hok : ∀ c ∈ cs, constrOk c = true) : ∃ b, satAll? v cs = some b := by
  induction cs with
  | nil => exact ⟨true, rfl⟩
  | cons c rest ih =>
    obtain ⟨b, hb⟩ := matches_total hv (hok c (List.mem_cons_self c rest))
    rw [satAll?, hb]
    cases b
    · exact ⟨false, rfl⟩
    · show ∃ b, satAll? v rest = some b
      exact ih fun c' hc' => hok c' (List.mem_cons_of_mem c hc')

theorem findCompatible_total {vs cs : List String} (hvs : ∀ v ∈ vs, numericVer v = true)
    (hok : ∀ c ∈ cs, constrOk c = true) : ∃ o, findCompatible vs cs = some o := by
  induction vs with
  | nil => exact ⟨none, rfl⟩
  | cons v rest ih =>
    obtain ⟨b, hb⟩ := satAll?_total (hvs v (List.mem_cons_self v rest)) hok
    rw [findCompatible, hb]
    cases b
    · show ∃ o, findCompatible rest cs = some o
      exact ih fun w hw => hvs w (List.mem_cons_of_mem v hw)
    · exact ⟨some v, rfl⟩

theorem selectVersions_total {reg : Registry} (hreg : RegSorted reg) :
    ∀ (req : Req) (cAcc : List Conflict) (rAcc : Packages),
      ReqOk req → ∃ out, selectVersions reg req cAcc rAcc = some out := by
  intro req
  induction req with
  | nil => exact fun cAcc rAcc _ => ⟨(cAcc, rAcc), rfl⟩
  | cons e rest ih =>
    intro cAcc rAcc hok
    obtain ⟨pkg, rows⟩ := e
    have hok' : ReqOk rest := fun e' he' r hr => hok e' (List.mem_cons_of_mem _ he') r hr
    rcases hd : dget reg pkg with _ | entry
    · rw [selectVersions_cons_none hd]
      exact ih _ _ hok'
    · rw [selectVersions_cons_some hd]
      have hvs : ∀ v ∈ entry.versions.reverse, numericVer v = true := by
        intro v hv
        exact List.all_eq_true.mp (hreg (pkg, entry) (mem_of_dget_eq_some hd)).2 v
          (List.mem_reverse.mp hv)
      have hcs : ∀ c ∈ rows.map (·.2), constrOk c = true := by
        intro c hc
        obtain ⟨r, hr, rfl⟩ := List.mem_map.mp hc
        exact hok (pkg, rows) (List.mem_cons_self _ _) r hr
      obtain ⟨o, ho⟩ := findCompatible_total hvs hcs
      rw [ho]
      rcases o with _ | version
      · exact ih _ _ hok'
      · exact ih _ _ hok'

/-! ### `_find_version` returns the greatest single-constraint match -/

theorem pyFilterM_spec {p : String → Option Bool} :
    ∀ {l r : List String}, pyFilterM p l = some r →
      r.Sublist l ∧ (∀ v ∈ r, p v = some true) ∧
        (∀ v ∈ l, p v = some true → v ∈ r) := by
  intro l
  induction l with
  | nil =>
    intro r h
    have h' : some ([] : List String) = some r := h
    cases Option.some.inj h'
    exact ⟨List.Sublist.refl [], by simp, by simp⟩
  | cons v rest ih =>
    intro r h
    rw [pyFilterM] at h
    rcases hb : p v with _ | b
    · rw [hb] at h
      have h' : (none : Option (List String)) = some r := h
      cases h'
    · rw [hb] at h
      rcases hr₁ : pyFilterM p rest with _ | r₁
      · rw [hr₁] at h
        have h' : (none : Option (List String)) = some r := h
        cases h'
      · rw [hr₁] at h
        obtain ⟨hsub, hmem, hcom⟩ := ih hr₁
        cases b
        · have h' : some r₁ = some r := h
          cases Option.some.inj h'
          refine ⟨List.Sublist.cons v hsub, hmem, ?_⟩
          intro w hw hpw
          rcases List.mem_cons.mp hw with rfl | hw'
          · rw [hb] at hpw
            exact absurd (Option.some.inj hpw) (by decide)
          · exact hcom w hw' hpw
        · have h' : some (v :: r₁) = some r := h
          cases Option.some.inj h'
          refine ⟨List.Sublist.cons₂ v hsub, ?_, ?_⟩
          · intro w hw
            rcases List.mem_cons.mp hw with rfl | hw'
            · exact hb
            · exact hmem w hw'
          · intro w hw hpw
            rcases List.mem_cons.mp hw with rfl | hw'
            · exact List.mem_cons_self _ _
            · exact List.mem_cons_of_mem _ (hcom w hw' hpw)

theorem getLast?_cons_isSome (x : String) (xs : List String) :
    ((x :: xs).getLast?).isSome = true := by
  induction xs generalizing x with
  | nil => simp
  | cons y ys ih =>
    rw [List.getLast?_cons_cons]
    exact ih y

theorem mem_of_getLast?_eq {l : List String} {w : String} (h : l.getLast? = some w) :
    w ∈ l := by
  induction l with
  | nil => simp at h
  | cons x xs ih =>
    cases xs with
    | nil =>
      have hx : ([x] : List String).getLast? = some x := by simp
      rw [hx] at h
      cases Option.some.inj h
      exact List.mem_singleton.mpr rfl
    | cons y ys =>
      rw [List.getLast?_cons_cons] at h
      exact List.mem_cons_of_mem x (ih h)

theorem sorted_getLast_ge {l : List String} :
    VersionsSorted l → ∀ {w : String}, l.getLast? = some w →
      ∀ v ∈ l, tupLe (version_tuple v) (version_tuple w) = true := by
  induction l with
  | nil =>
    intro _ w h
    simp at h
  | cons x xs ih =>
    intro hs w hg v hv
    rw [VersionsSorted, List.pairwise_cons] at hs
    obtain ⟨hx, hxs⟩ := hs
    cases xs with
    | nil =>
      have hgx : ([x] : List String).getLast? = some x := by simp
      rw [hgx] at hg
      cases Option.some.inj hg
      rcases List.mem_singleton.mp hv with rfl
      exact tupLe_refl _
    | cons y ys =>
      rw [List.getLast?_cons_cons] at hg
      have hw : w ∈ y :: ys := mem_of_getLast?_eq hg
      rcases List.mem_cons.mp hv with rfl | hv'
      · exact hx w hw
      · exact ih hxs hg v hv'

theorem find_version_some_spec {reg : Registry} {name c : String} {entry : RegEntry}
    (hreg : RegSorted reg) (hd : dget reg name = some entry) {w : String}
    (h : find_version reg name (some c) = some (some w)) :
    w ∈ entry.versions ∧ matches_constraint w c = some true ∧
      ∀ u ∈ entry.versions, matches_constraint u c = some true →
        tupLe (version_tuple u) (version_tuple w) = true := by
  rw [find_version] at h
  simp only [hd] at h
  by_cases he : entry.versions.isEmpty = true
  · rw [if_pos he] at h
    exact absurd h (by simp)
  · rw [if_neg he] at h
    have h' : (pyFilterM (fun v => matches_constraint v c) entry.versions).map List.getLast?
        = some (some w) := h
    rcases hf : pyFilterM (fun v => matches_constraint v c) entry.versions with _ | r
    · rw [hf] at h'
      exact absurd h' (by simp)
    · rw [hf] at h'
      have hl : r.getLast? = some w := by
        have h'' : some r.getLast? = some (some w) := h'
        exact Option.some.inj h''
      obtain ⟨hsub, hmem, hcom⟩ := pyFilterM_spec hf
      have hwr : w ∈ r := mem_of_getLast?_eq hl
      have hsorted : VersionsSorted entry.versions :=
        (hreg (name, entry) (mem_of_dget_eq_some hd)).1
      have hrsorted : VersionsSorted r := List.Pairwise.sublist hsub hsorted
      refine ⟨hsub.subset hwr, hmem w hwr, ?_⟩
      intro u hu hmu
      exact sorted_getLast_ge hrsorted hl u (hcom u hu hmu)

theorem find_version_some_none_spec {reg : Registry} {name c : String} {entry : RegEntry}
    (hd : dget reg name = some entry)
    (h : find_version reg name (some c) = some none) :
    ∀ u ∈ entry.versions, matches_constraint u c ≠ some true := by
  rw [find_version] at h
  simp only [hd] at h
  by_cases he : entry.versions.isEmpty = true
  · intro u hu
    cases hv : entry.versions with
    | nil =>
      rw [hv] at hu
      simp at hu
    | cons a as =>
      rw [hv] at he
      simp [List.isEmpty] at he
  · rw [if_neg he] at h
    have h' : (pyFilterM (fun v => matches_constraint v c) entry.versions).map List.getLast?
        = some none := h
    rcases hf : pyFilterM (fun v => matches_constraint v c) entry.versions with _ | r
    · rw [hf] at h'
      exact absurd h' (by simp)
    · rw [hf] at h'
      have hl : r.getLast? = none := by
        have h'' : some r.getLast? = some none := h'
        exact Option.some.inj h''
      have hrnil : r = [] := by
        cases r with
        | nil => rfl
        | cons a as =>
          have hsome := getLast?_cons_isSome a as
          rw [hl] at hsome
          exact Bool.noConfusion hsome
      obtain ⟨_, _, hcom⟩ := pyFilterM_spec hf
      intro u hu hmu
      have hur := hcom u hu hmu
      rw [hrnil] at hur
      simp at hur

theorem find_version_sat_some {reg : Registry} {name c : String} {entry : RegEntry}
    (hreg : RegSorted reg) (hd : dget reg name = some entry) (hcok : constrOk c = true)
    {v : String} (hv : v ∈ entry.versions)
    (hsat : matches_constraint v c = some true) :
    ∃ w, find_version reg name (some c) = some (some w) := by
  obtain ⟨ov, hov⟩ := @find_version_total reg name (some c) hreg (Or.inr hcok)
  rcases ov with _ | w
  · exact absurd hsat (find_version_some_none_spec hd hov v hv)
  · exact ⟨w, hov⟩

/-! ### The selected version is walked: minimum of the per-constraint maxima -/

theorem exists_min_by {l : List String} (f : String → List Part) (hne : l ≠ [])
    (hint : ∀ x ∈ l, allInt (f x) = true) :
    ∃ a ∈ l, ∀ b ∈ l, tupLe (f a) (f b) = true := by
  induction l with
  | nil => exact absurd rfl hne
  | cons x xs ih =>
    cases xs with
    | nil =>
      refine ⟨x, List.mem_singleton.mpr rfl, ?_⟩
      intro b hb
      rcases List.mem_singleton.mp hb with rfl
      exact tupLe_refl _
    | cons y ys =>
      obtain ⟨m, hm, hmin⟩ := ih (by simp)
        (fun z hz => hint z (List.mem_cons_of_mem x hz))
      rcases tupLe_total (hint x (List.mem_cons_self x (y :: ys)))
          (hint m (List.mem_cons_of_mem x hm)) with hxm | hmx
      · refine ⟨x, List.mem_cons_self _ _, ?_⟩
        intro b hb
        rcases List.mem_cons.mp hb with rfl | hb'
        · exact tupLe_refl _
        · exact tupLe_trans hxm (hmin b hb')
      · refine ⟨m, List.mem_cons_of_mem x hm, ?_⟩
        intro b hb
        rcases List.mem_cons.mp hb with rfl | hb'
        · exact hmx
        · exact hmin b hb'

/-- The version that `install` resolves for a package (highest
satisfying every collected text) is returned by `_find_version` for at
least one of those texts: it equals the per-constraint maximum of the
text whose maximum is smallest. -/
theorem min_walked {reg : Registry} {name : String} {entry : RegEntry}
    (hreg : RegSorted reg) (hstrict : VersionsStrict entry.versions)
    (hd : dget reg name = some entry)
    {texts : List String} (hne : texts ≠ []) (hok : ∀ c ∈ texts, constrOk c = true)
    {v : String} (hv : v ∈ entry.versions)
    (hsat : ∀ c ∈ texts, matches_constraint v c = some true)
    (hgreatest : ∀ u ∈ entry.versions,
      (∀ c ∈ texts, matches_constraint u c = some true) →
      tupLe (version_tuple u) (version_tuple v) = true) :
    ∃ c ∈ texts, find_version reg name (some c) = some (some v) := by
  have hnum : ∀ u ∈ entry.versions, numericVer u = true := by
    intro u hu
    exact List.all_eq_true.mp (hreg (name, entry) (mem_of_dget_eq_some hd)).2 u hu
  let wOf : String → String := fun c => ((find_version reg name (some c)).getD none).getD ""
  have hwOf : ∀ c ∈ texts, find_version reg name (some c) = some (some (wOf c)) := by
    intro c hc
    obtain ⟨w, hw⟩ := find_version_sat_some hreg hd (hok c hc) hv (hsat c hc)
    show find_version reg name (some c) =
      some (some (((find_version reg name (some c)).getD none).getD ""))
    rw [hw]
    rfl
  have hspec : ∀ c ∈ texts, wOf c ∈ entry.versions ∧
      matches_constraint (wOf c) c = some true ∧
      ∀ u ∈ entry.versions, matches_constraint u c = some true →
        tupLe (version_tuple u) (version_tuple (wOf c)) = true :=
    fun c hc => find_version_some_spec hreg hd (hwOf c hc)
  obtain ⟨cm, hcm, hmin⟩ := exists_min_by (fun c => version_tuple (wOf c)) hne
    (fun c hc => hnum (wOf c) (hspec c hc).1)
  have hvle : ∀ c ∈ texts, tupLe (version_tuple v) (version_tuple (wOf c)) = true :=
    fun c hc => (hspec c hc).2.2 v hv (hsat c hc)
  have hsatm : ∀ c ∈ texts, matches_constraint (wOf cm) c = some true := by
    intro c hc
    exact sat_convex (hnum v hv) (hnum (wOf cm) (hspec cm hcm).1)
      (hnum (wOf c) (hspec c hc).1) (hok c hc) (hvle cm hcm) (hmin c hc)
      (hsat c hc) (hspec c hc).2.1
  have h1 : tupLe (version_tuple (wOf cm)) (version_tuple v) = true :=
    hgreatest (wOf cm) (hspec cm hcm).1 hsatm
  have h2 : tupLe (version_tuple v) (version_tuple (wOf cm)) = true := hvle cm hcm
  have heq : version_tuple (wOf cm) = version_tuple v :=
    tupLe_antisymm_tuples (hnum (wOf cm) (hspec cm hcm).1) (hnum v hv) h1 h2
  have hstr : wOf cm = v := strict_tuple_inj hstrict (wOf cm) (hspec cm hcm).1 v hv heq
  refine ⟨cm, hcm, ?_⟩
  rw [← hstr]
  exact hwOf cm hcm

/-! ### Postconditions of the collection walk -/

theorem reqMono_refl (req : Req) : ReqMono req req :=
  ⟨fun _ h => h, fun _ _ h => h⟩

theorem reqMono_trans {r₁ r₂ r₃ : Req} (h₁ : ReqMono r₁ r₂) (h₂ : ReqMono r₂ r₃) :
    ReqMono r₁ r₃ :=
  ⟨fun p h => h₂.1 p (h₁.1 p h), fun p t h => h₂.2 p t (h₁.2 p t h)⟩

theorem dget_ensureKey_isSome {req : Req} {name k : String}
    (h : (dget req k).isSome = true) : (dget (ensureKey req name) k).isSome = true := by
  by_cases hk : k = name
  · subst hk
    rw [dget_ensureKey_self]
    rfl
  · rw [dget_ensureKey_ne req name k hk]
    exact h

theorem reqMono_ensureKey (req : Req) (name : String) : ReqMono req (ensureKey req name) :=
  ⟨fun p h => dget_ensureKey_isSome h,
    fun p t h => by rw [textsOf_ensureKey]; exact h⟩

theorem textsOf_dset_rows {req : Req} {name : String} (rows : List (String × String)) :
    textsOf (dset req name rows) name = rows.map (·.2) := by
  rw [textsOf, rowsOf, dget_dset_self]
  rfl

theorem textsOf_dset_ne {req : Req} {name k : String} (rows : List (String × String))
    (hk : k ≠ name) : textsOf (dset req name rows) k = textsOf req k := by
  rw [textsOf, rowsOf, dget_dset_ne req name k rows hk, textsOf, rowsOf]

theorem reqMono_recordRow (req : Req) (name : String) (c : Option String)
    (requirer : String) : ReqMono req (recordRow req name c requirer) := by
  rcases c with _ | t
  · exact reqMono_ensureKey req name
  · by_cases ht : t = ""
    · subst ht
      rw [recordRow, if_pos (by simp)]
      exact reqMono_ensureKey req name
    · rw [recordRow, if_neg (by simpa using ht)]
      constructor
      · intro p hp
        by_cases hpn : p = name
        · subst hpn
          rw [dget_dset_self]
          rfl
        · rw [dget_dset_ne _ _ _ _ hpn]
          exact dget_ensureKey_isSome hp
      · intro p s hs
        by_cases hpn : p = name
        · subst hpn
          rw [textsOf_dset_rows, List.map_append, rowsOf_ensureKey]
          apply List.mem_append_left
          exact hs
        · rw [textsOf_dset_ne _ hpn, textsOf_ensureKey]
          exact hs

theorem dget_recordRow_self (req : Req) (name : String) (c : Option String)
    (requirer : String) : (dget (recordRow req name c requirer) name).isSome = true := by
  rcases c with _ | t
  · rw [recordRow, dget_ensureKey_self]
    rfl
  · by_cases ht : t = ""
    · subst ht
      rw [recordRow, if_pos (by simp), dget_ensureKey_self]
      rfl
    · rw [recordRow, if_neg (by simpa using ht), dget_dset_self]
      rfl

theorem dget_recordRow_cases {req : Req} {name : String} {c : Option String}
    {requirer pkg : String}
    (h : (dget (recordRow req name c requirer) pkg).isSome = true) :
    (dget req pkg).isSome = true ∨ pkg = name := by
  by_cases hpn : pkg = name
  · exact Or.inr hpn
  · left
    rcases c with _ | t
    · rw [recordRow, dget_ensureKey_ne req name pkg hpn] at h
      exact h
    · by_cases ht : t = ""
      · subst ht
        rw [recordRow, if_pos (by simp), dget_ensureKey_ne req name pkg hpn] at h
        exact h
      · rw [recordRow, if_neg (by simpa using ht), dget_dset_ne _ _ _ _ hpn,
          dget_ensureKey_ne req name pkg hpn] at h
        exact h

theorem textsOf_recordRow_cases {req : Req} {name : String} {c : Option String}
    {requirer pkg t : String} (h : t ∈ textsOf (recordRow req name c requirer) pkg) :
    t ∈ textsOf req pkg ∨ (pkg = name ∧ c = some t) := by
  rcases c with _ | s
  · rw [recordRow, textsOf_ensureKey] at h
    exact Or.inl h
  · by_cases hs : s = ""
    · subst hs
      rw [recordRow, if_pos (by simp), textsOf_ensureKey] at h
      exact Or.inl h
    · rw [recordRow, if_neg (by simpa using hs)] at h
      by_cases hpn : pkg = name
      · subst hpn
        rw [textsOf_dset_rows, List.map_append, rowsOf_ensureKey] at h
        rcases List.mem_append.mp h with h' | h'
        · exact Or.inl h'
        · right
          have hts : t = s := by simpa using h'
          exact ⟨rfl, by rw [hts]⟩
      · rw [textsOf_dset_ne _ hpn, textsOf_ensureKey] at h
        exact Or.inl h

theorem collectDeps_mono2_of (step : String → Option String → Req → Option Req)
    (hstep : ∀ d dc r r', step d dc r = some r' → ReqMono r r') :
    ∀ (ds : List (String × Option String)) (req r' : Req),
      collectDeps step ds req = some r' → ReqMono req r' := by
  intro ds
  induction ds with
  | nil =>
    intro req r' h
    rw [collectDeps] at h
    cases h
    exact reqMono_refl _
  | cons e rest ih =>
    obtain ⟨d, dc⟩ := e
    intro req r' h
    rw [collectDeps] at h
    cases hm : memoHit req d dc
    · simp only [hm] at h
      rcases hs : step d dc req with _ | r₁
      · rw [hs] at h
        exact absurd h (by simp)
      · rw [hs] at h
        exact reqMono_trans (hstep d dc req r₁ hs) (ih r₁ r' h)
    · simp only [hm] at h
      exact ih req r' h

theorem collect_mono2 {reg : Registry} :
    ∀ (f : Nat) (name : String) (c : Option String) (req : Req) (requirer : String)
      (r' : Req), collectFuel reg f name c req requirer = some r' → ReqMono req r' := by
  intro f
  induction f with
  | zero =>
    intro name c req requirer r' h
    exact absurd h (by simp [collectFuel])
  | succ f ih =>
    intro name c req requirer r' h
    rw [collectFuel_succ] at h
    have hbase := reqMono_recordRow req name c requirer
    rcases hd : dget reg name with _ | entry
    · simp only [hd] at h
      cases h
      exact hbase
    · simp only [hd] at h
      rcases hf : find_version reg name c with _ | ov
      · simp only [hf] at h
        exact absurd h (by simp)
      · simp only [hf] at h
        rcases ov with _ | version
        · cases h
          exact hbase
        · exact reqMono_trans hbase
            (collectDeps_mono2_of _ (fun d dc r r₁ h' => ih d dc r name r₁ h') _ _ _ h)

theorem collect_key {reg : Registry} {f : Nat} {name : String} {c : Option String}
    {req r' : Req} {requirer : String}
    (h : collectFuel reg f name c req requirer = some r') :
    (dget r' name).isSome = true := by
  cases f with
  | zero => exact absurd h (by simp [collectFuel])
  | succ f =>
    rw [collectFuel_succ] at h
    have hbase := dget_recordRow_self req name c requirer
    rcases hd : dget reg name with _ | entry
    · simp only [hd] at h
      cases h
      exact hbase
    · simp only [hd] at h
      rcases hf : find_version reg name c with _ | ov
      · simp only [hf] at h
        exact absurd h (by simp)
      · simp only [hf] at h
        rcases ov with _ | version
        · cases h
          exact hbase
        · exact (collectDeps_mono2_of _
            (fun d dc r r₁ h' => collect_mono2 f d dc r name r₁ h') _ _ _ h).1 name hbase

theorem collect_records {reg : Registry} {f : Nat} {name t requirer : String}
    {req r' : Req} (ht : t ≠ "")
    (h : collectFuel reg f name (some t) req requirer = some r') :
    t ∈ textsOf r' name := by
  cases f with
  | zero => exact absurd h (by simp [collectFuel])
  | succ f =>
    rw [collectFuel_succ] at h
    have hbase : t ∈ textsOf (recordRow req name (some t) requirer) name := by
      rw [textsOf_recordRow_truthy ht]
      exact List.mem_append_right _ (List.mem_singleton.mpr rfl)
    rcases hd : dget reg name with _ | entry
    · simp only [hd] at h
      cases h
      exact hbase
    · simp only [hd] at h
      rcases hf : find_version reg name (some t) with _ | ov
      · simp only [hf] at h
        exact absurd h (by simp)
      · simp only [hf] at h
        rcases ov with _ | version
        · cases h
          exact hbase
        · exact (collectDeps_mono2_of _
            (fun d dc r r₁ h' => collect_mono2 f d dc r name r₁ h') _ _ _ h).2 name t hbase

theorem collectDeps_records_of (reg : Registry) (f : Nat) (requirer : String) :
    ∀ (ds : List (String × Option String)) (req r' : Req),
      collectDeps (fun d dc r => collectFuel reg f d dc r requirer) ds req = some r' →
      ∀ e ∈ ds, ∀ t, e.2 = some t → t ≠ "" → t ∈ textsOf r' e.1 := by
  intro ds
  induction ds with
  | nil =>
    intro req r' _ e he
    simp at he
  | cons e₀ rest ih =>
    obtain ⟨d, dc⟩ := e₀
    intro req r' h e he t het htne
    rw [collectDeps] at h
    cases hm : memoHit req d dc
    · simp only [hm] at h
      rcases hs : collectFuel reg f d dc req requirer with _ | r₁
      · rw [hs] at h
        exact absurd h (by simp)
      · rw [hs] at h
        rcases List.mem_cons.mp he with rfl | he'
        · simp only at het
          subst het
          have h₁ : t ∈ textsOf r₁ d := collect_records htne hs
          exact (collectDeps_mono2_of _
            (fun d' dc' r r₂ h' => collect_mono2 f d' dc' r requirer r₂ h') _ _ _ h).2
            d t h₁
        · exact ih r₁ r' h e he' t het htne
    · simp only [hm] at h
      rcases List.mem_cons.mp he with rfl | he'
      · simp only at het
        subst het
        have hmem : t ∈ textsOf req d := by
          by_cases hx : t ∈ textsOf req d
          · exact hx
          · have hfalse : memoHit req d (some t) = false := memoHit_false_iff.mpr hx
            rw [hm] at hfalse
            exact Bool.noConfusion hfalse
        exact (collectDeps_mono2_of _
          (fun d' dc' r r₂ h' => collect_mono2 f d' dc' r requirer r₂ h') _ _ _ h).2
          d t hmem
      · exact ih req r' h e he' t het htne

theorem collect_none_post {reg : Registry} {f : Nat} {name requirer : String}
    {req r' : Req} (h : collectFuel reg f name none req requirer = some r') :
    ∀ entry, dget reg name = some entry →
      ∀ v, find_version reg name none = some (some v) → DepsDone r' entry v := by
  cases f with
  | zero => exact absurd h (by simp [collectFuel])
  | succ f =>
    intro entry hd v hfv
    rw [collectFuel_succ] at h
    simp only [hd] at h
    simp only [hfv] at h
    intro e he t het htne
    exact collectDeps_records_of reg f name _ _ _ h e he t het htne

theorem depsDone_mono {req req' : Req} {entry : RegEntry} {v : String}
    (hm : ReqMono req req') (h : DepsDone req entry v) : DepsDone req' entry v :=
  fun e he t het htne => hm.2 e.1 t (h e he t het htne)

theorem collectDeps_textsDone_of {reg : Registry} (f : Nat) (requirer : String)
    (hdone : ∀ (d : String) (dc : Option String) (r r' : Req),
      collectFuel reg f d dc r requirer = some r' →
      ∀ pkg t, t ∈ textsOf r' pkg → t ∉ textsOf r pkg →
      ∀ entry, dget reg pkg = some entry →
      ∀ v, find_version reg pkg (some t) = some (some v) → DepsDone r' entry v) :
    ∀ (ds : List (String × Option String)) (req r' : Req),
      collectDeps (fun d dc r => collectFuel reg f d dc r requirer) ds req = some r' →
      ∀ pkg t, t ∈ textsOf r' pkg → t ∉ textsOf req pkg →
      ∀ entry, dget reg pkg = some entry →
      ∀ v, find_version reg pkg (some t) = some (some v) → DepsDone r' entry v := by
  intro ds
  induction ds with
  | nil =>
    intro req r' h pkg t htr htn entry hd v hfv
    rw [collectDeps] at h
    cases h
    exact absurd htr htn
  | cons e₀ rest ih =>
    obtain ⟨d, dc⟩ := e₀
    intro req r' h pkg t htr htn entry hd v hfv
    rw [collectDeps] at h
    cases hm : memoHit req d dc
    · simp only [hm] at h
      rcases hs : collectFuel reg f d dc req requirer with _ | r₁
      · rw [hs] at h
        exact absurd h (by simp)
      · rw [hs] at h
        by_cases ht₁ : t ∈ textsOf r₁ pkg
        · have hdone₁ := hdone d dc req r₁ hs pkg t ht₁ htn entry hd v hfv
          exact depsDone_mono (collectDeps_mono2_of _
            (fun d' dc' r r₂ h' => collect_mono2 f d' dc' r requirer r₂ h') _ _ _ h)
            hdone₁
        · exact ih r₁ r' h pkg t htr ht₁ entry hd v hfv
    · simp only [hm] at h
      exact ih req r' h pkg t htr htn entry hd v hfv

/-- Every constraint text first recorded by a collection call has had
the dependency list of its `_find_version` result walked into the
final requirement map. -/
theorem collect_textsDone {reg : Registry} :
    ∀ (f : Nat) (name : String) (c : Option String) (req : Req) (requirer : String)
      (r' : Req), collectFuel reg f name c req requirer = some r' →
      ∀ pkg t, t ∈ textsOf r' pkg → t ∉ textsOf req pkg →
      ∀ entry, dget reg pkg = some entry →
      ∀ v, find_version reg pkg (some t) = some (some v) → DepsDone r' entry v := by
  intro f
  induction f with
  | zero =>
    intro name c req requirer r' h
    exact absurd h (by simp [collectFuel])
  | succ f ih =>
    intro name c req requirer r' h pkg t htr htn entry hd v hfv
    rw [collectFuel_succ] at h
    rcases hdn : dget reg name with _ | entryN
    · simp only [hdn] at h
      cases h
      rcases textsOf_recordRow_cases htr with h' | ⟨rfl, rfl⟩
      · exact absurd h' htn
      · rw [hd] at hdn
        exact absurd hdn (by simp)
    · simp only [hdn] at h
      rcases hf : find_version reg name c with _ | ov
      · simp only [hf] at h
        exact absurd h (by simp)
      · simp only [hf] at h
        rcases ov with _ | version
        · cases h
          rcases textsOf_recordRow_cases htr with h' | ⟨rfl, rfl⟩
          · exact absurd h' htn
          · rw [hf] at hfv
            exact absurd hfv (by simp)
        · by_cases ht₂ : t ∈ textsOf (recordRow req name c requirer) pkg
          · rcases textsOf_recordRow_cases ht₂ with h' | ⟨rfl, rfl⟩
            · exact absurd h' htn
            · rw [hf] at hfv
              have hv2 : version = v := Option.some.inj (Option.some.inj hfv)
              subst hv2
              rw [hdn] at hd
              have he2 : entryN = entry := Option.some.inj hd
              subst he2
              intro e he t' het' htne'
              exact collectDeps_records_of reg f pkg _ _ _ h e he t' het' htne'
          · exact collectDeps_textsDone_of f name
              (fun d' dc' r r₂ h' => ih d' dc' r name r₂ h') _ _ _ h pkg t htr ht₂
              entry hd v hfv

theorem recordRow_KT {root : String} {req : Req} {name : String} {c : Option String}
    {requirer : String} (hKT : KeysTexts root req)
    (hcond : truthy c = true ∨ name = root) :
    KeysTexts root (recordRow req name c requirer) := by
  intro pkg hp
  rcases dget_recordRow_cases hp with hp' | rfl
  · rcases hKT pkg hp' with hr | hne
    · exact Or.inl hr
    · right
      rcases hx : textsOf req pkg with _ | ⟨t₀, ts⟩
      · exact absurd hx hne
      · have hm₀ : t₀ ∈ textsOf req pkg := by
          rw [hx]
          exact List.mem_cons_self _ _
        have hmem := (reqMono_recordRow req name c requirer).2 pkg t₀ hm₀
        intro hnil
        rw [hnil] at hmem
        simp at hmem
  · rcases hcond with htr | rfl
    · right
      rcases c with _ | t
      · exact Bool.noConfusion htr
      · have htne : t ≠ "" := by
          intro he
          subst he
          exact Bool.noConfusion htr
        rw [textsOf_recordRow_truthy htne]
        simp
    · exact Or.inl rfl

theorem collectDeps_KT_of {reg : Registry} (root : String) (f : Nat) (requirer : String)
    (hstep : ∀ (d : String) (dc : Option String) (r r' : Req),
      collectFuel reg f d dc r requirer = some r' → (truthy dc = true ∨ d = root) →
      KeysTexts root r → KeysTexts root r') :
    ∀ (ds : List (String × Option String)), (∀ e ∈ ds, truthy e.2 = true) →
      ∀ (req r' : Req), KeysTexts root req →
        collectDeps (fun d dc r => collectFuel reg f d dc r requirer) ds req = some r' →
        KeysTexts root r' := by
  intro ds
  induction ds with
  | nil =>
    intro _ req r' hKT h
    rw [collectDeps] at h
    cases h
    exact hKT
  | cons e₀ rest ih =>
    obtain ⟨d, dc⟩ := e₀
    intro hds req r' hKT h
    rw [collectDeps] at h
    cases hm : memoHit req d dc
    · simp only [hm] at h
      rcases hs : collectFuel reg f d dc req requirer with _ | r₁
      · rw [hs] at h
        exact absurd h (by simp)
      · rw [hs] at h
        have hKT₁ := hstep d dc req r₁ hs
          (Or.inl (hds (d, dc) (List.mem_cons_self _ _))) hKT
        exact ih (fun e he => hds e (List.mem_cons_of_mem _ he)) r₁ r' hKT₁ h
    · simp only [hm] at h
      exact ih (fun e he => hds e (List.mem_cons_of_mem _ he)) req r' hKT h

/-- Only the root package may end up with a key but no recorded
constraint text: every other key is created by a truthy edge. -/
theorem collect_KT {reg : Registry} (hedges : EdgesOk reg) (root : String) :
    ∀ (f : Nat) (name : String) (c : Option String) (req : Req) (requirer : String)
      (r' : Req), collectFuel reg f name c req requirer = some r' →
      (truthy c = true ∨ name = root) →
      KeysTexts root req → KeysTexts root r' := by
  intro f
  induction f with
  | zero =>
    intro name c req requirer r' h
    exact absurd h (by simp [collectFuel])
  | succ f ih =>
    intro name c req requirer r' h hcond hKT
    rw [collectFuel_succ] at h
    have hKT₂ : KeysTexts root (recordRow req name c requirer) := recordRow_KT hKT hcond
    rcases hd : dget reg name with _ | entry
    · simp only [hd] at h
      cases h
      exact hKT₂
    · simp only [hd] at h
      rcases hf : find_version reg name c with _ | ov
      · simp only [hf] at h
        exact absurd h (by simp)
      · simp only [hf] at h
        rcases ov with _ | version
        · cases h
          exact hKT₂
        · have hds : ∀ e ∈ depsAt entry version, truthy e.2 = true := by
            intro e he
            have heok : edgeOk e := by
              rw [depsAt] at he
              rcases hdd : dget entry.dependencies version with _ | ds'
              · rw [hdd] at he
                simp at he
              · rw [hdd] at he
                exact hedges (name, entry) (mem_of_dget_eq_some hd) (version, ds')
                  (mem_of_dget_eq_some hdd) e (by simpa using he)
            rcases e with ⟨d, _ | s⟩
            · exact False.elim heok
            · obtain ⟨hsne, _⟩ := heok
              show (!(s == "")) = true
              simp [hsne]
          exact collectDeps_KT_of root f name
            (fun d' dc' r r₂ h' hcnd hk => ih d' dc' r name r₂ h' hcnd hk)
            _ hds _ _ hKT₂ h

theorem isSome_of_texts_mem {req : Req} {d t : String} (h : t ∈ textsOf req d) :
    (dget req d).isSome = true := by
  rw [textsOf, rowsOf] at h
  rcases hd : dget req d with _ | rows
  · rw [hd] at h
    simp at h
  · rfl

theorem pairUniverse_constrOk {reg : Registry} {root : String} {c₀ : Option String}
    (hedges : EdgesOk reg) (hrt : RootTruthy c₀) :
    ∀ p ∈ pairUniverse reg root c₀, constrOk p.2 = true := by
  intro p hp
  rw [pairUniverse.eq_def] at hp
  rcases List.mem_append.mp hp with hp | hp
  · rw [List.mem_flatMap] at hp
    obtain ⟨q, hq, hp⟩ := hp
    rw [List.mem_flatMap] at hp
    obtain ⟨dep, hdep, hp⟩ := hp
    rw [List.mem_filterMap] at hp
    obtain ⟨e, he, hpe⟩ := hp
    have heok : edgeOk e := hedges q hq dep hdep e he
    rcases e with ⟨d, _ | s⟩
    · exact False.elim heok
    · obtain ⟨hsne, hsok⟩ := heok
      have hpe' : (if s = "" then none else some (d, s)) = some p := hpe
      rw [if_neg hsne] at hpe'
      cases Option.some.inj hpe'
      exact hsok
  · rcases c₀ with _ | c
    · simp at hp
    · obtain ⟨hne, hcok⟩ := hrt
      have hp' : p ∈ (if c = "" then [] else [(root, c)]) := hp
      rw [if_neg hne] at hp'
      rcases List.mem_singleton.mp hp' with rfl
      exact hcok

theorem reqOk_of_inv {U : List (String × String)} {req : Req}
    (hInv : ReqInv U req) (hU : ∀ p ∈ U, constrOk p.2 = true) : ReqOk req :=
  fun e he r hr =>
    hU (e.1, r.2) (hInv.2.2 ((@mem_flatPairs req (e.1, r.2)).mpr ⟨e, he, r, hr, rfl⟩))

theorem collect_root_inv {reg : Registry} {root : String} {c₀ : Option String} {fC : Nat}
    {req : Req} (hrt : RootTruthy c₀)
    (hc : collectFuel reg fC root c₀ [] "root" = some req) :
    ReqInv (pairUniverse reg root c₀) req := by
  refine collect_inv_fuel (edges_in_pairUniverse reg root c₀) fC root c₀ [] "root" req
    (reqInv_nil _) ?_ hc
  rcases c₀ with _ | c
  · trivial
  · obtain ⟨hne, _⟩ := hrt
    refine Or.inr ⟨?_, ?_⟩
    · simp [textsOf, rowsOf, dget]
    · rw [pairUniverse.eq_def]
      apply List.mem_append_right
      simp [hne]

/-! ### The ordered-install walk: success on closed input, termination -/

theorem installOrderedFuel_succ (reg : Registry) (resolved : Packages) (fuel : Nat)
    (name : String) (installed : List String) (packages : Packages)
    (visiting : List String) :
    installOrderedFuel reg resolved (fuel + 1) name installed packages visiting =
      if (dget packages name).isSome then some (true, installed, packages, visiting)
      else if name ∈ visiting then some (true, installed, packages, visiting)
      else if (dget reg name).isNone then some (false, installed, packages, visiting)
      else
        match dget resolved name with
        | none => some (false, installed, packages, visiting ++ [name])
        | some version =>
          match dget reg name with
          | none => some (false, installed, packages, visiting ++ [name])
          | some entry =>
            match installDeps
                (fun d i p vis => installOrderedFuel reg resolved fuel d i p vis)
                (depsAt entry version) installed packages (visiting ++ [name]) with
            | none => none
            | some (false, i, p, vis) => some (false, i, p, vis)
            | some (true, i, p, vis) =>
              some (true, i ++ [name ++ "==" ++ version], dset p name version, vis) := by
  rfl

theorem installDeps_no_false_of
    (step : String → List String → Packages → List String →
      Option (Bool × List String × Packages × List String))
    (P : String → Prop)
    (hstep : ∀ d i p vis out, P d → step d i p vis = some out → out.1 = true) :
    ∀ (ds : List (String × Option String)) (i : List String) (p : Packages)
      (vis : List String) (out : Bool × List String × Packages × List String),
      (∀ e ∈ ds, P e.1) → installDeps step ds i p vis = some out → out.1 = true := by
  intro ds
  induction ds with
  | nil =>
    intro i p vis out _ h
    rw [installDeps] at h
    cases Option.some.inj h
    rfl
  | cons e₀ rest ih =>
    obtain ⟨d, dc⟩ := e₀
    intro i p vis out hds h
    rw [installDeps] at h
    rcases hs : step d i p vis with _ | o₁
    · rw [hs] at h
      exact absurd h (by simp)
    · rw [hs] at h
      obtain ⟨b₁, i₁, p₁, vis₁⟩ := o₁
      have hb₁ : b₁ = true := hstep d i p vis (b₁, i₁, p₁, vis₁)
        (hds (d, dc) (List.mem_cons_self _ _)) hs
      subst hb₁
      have h' : installDeps step rest i₁ p₁ vis₁ = some out := h
      exact ih i₁ p₁ vis₁ out (fun e he => hds e (List.mem_cons_of_mem _ he)) h'

/-- When every required package is registered, has a resolved version,
and the resolved versions' dependencies stay inside the requirement
map, the ordered-install walk never reports failure. -/
theorem installOrdered_no_false {reg : Registry} {res : Packages} {req : Req}
    (hS : ∀ pkg, (dget req pkg).isSome = true →
      ∃ entry v, dget reg pkg = some entry ∧ dget res pkg = some v ∧
        ∀ e ∈ depsAt entry v, (dget req e.1).isSome = true) :
    ∀ (f : Nat) (name : String) (installed : List String) (packages : Packages)
      (visiting : List String) (out : Bool × List String × Packages × List String),
      (dget req name).isSome = true →
      installOrderedFuel reg res f name installed packages visiting = some out →
      out.1 = true := by
  intro f
  induction f with
  | zero =>
    intro name i p vis out _ h
    exact absurd h (by simp [installOrderedFuel])
  | succ f ih =>
    intro name i p vis out hname h
    rw [installOrderedFuel_succ] at h
    obtain ⟨entry, v, hdreg, hdres, hclosed⟩ := hS name hname
    by_cases hp : (dget p name).isSome = true
    · rw [if_pos hp] at h
      cases Option.some.inj h
      rfl
    · rw [if_neg hp] at h
      by_cases hv : name ∈ vis
      · rw [if_pos hv] at h
        cases Option.some.inj h
        rfl
      · rw [if_neg hv] at h
        rw [if_neg (by simp [hdreg])] at h
        simp only [hdres] at h
        simp only [hdreg] at h
        rcases hfold : installDeps
            (fun d i' p' vis' => installOrderedFuel reg res f d i' p' vis')
            (depsAt entry v) i p (vis ++ [name]) with _ | o₁
        · rw [hfold] at h
          exact absurd h (by simp)
        · rw [hfold] at h
          obtain ⟨b₁, i₁, p₁, vis₁⟩ := o₁
          have hb₁ : b₁ = true := installDeps_no_false_of _
            (fun d => (dget req d).isSome = true)
            (fun d i' p' vis' out' hPd h' => ih d i' p' vis' out' hPd h')
            (depsAt entry v) i p (vis ++ [name]) (b₁, i₁, p₁, vis₁) hclosed hfold
          subst hb₁
          have h' : some ((true : Bool), i₁ ++ [name ++ "==" ++ v], dset p₁ name v, vis₁)
              = some out := h
          cases Option.some.inj h'
          rfl

theorem installDeps_vis_mono_of
    (step : String → List String → Packages → List String →
      Option (Bool × List String × Packages × List String))
    (hstep : ∀ d i p vis out, step d i p vis = some out → ∀ x ∈ vis, x ∈ out.2.2.2) :
    ∀ (ds : List (String × Option String)) (i : List String) (p : Packages)
      (vis : List String) (out : Bool × List String × Packages × List String),
      installDeps step ds i p vis = some out → ∀ x ∈ vis, x ∈ out.2.2.2 := by
  intro ds
  induction ds with
  | nil =>
    intro i p vis out h
    rw [installDeps] at h
    cases Option.some.inj h
    exact fun x hx => hx
  | cons e₀ rest ih =>
    obtain ⟨d, dc⟩ := e₀
    intro i p vis out h
    rw [installDeps] at h
    rcases hs : step d i p vis with _ | o₁
    · rw [hs] at h
      exact absurd h (by simp)
    · rw [hs] at h
      obtain ⟨b₁, i₁, p₁, vis₁⟩ := o₁
      cases b₁
      · have h' : some ((false : Bool), i₁, p₁, vis₁) = some out := h
        cases Option.some.inj h'
        exact hstep d i p vis _ hs
      · have h' : installDeps step rest i₁ p₁ vis₁ = some out := h
        intro x hx
        exact ih i₁ p₁ vis₁ out h' x (hstep d i p vis _ hs x hx)

theorem installOrdered_vis_mono {reg : Registry} {res : Packages} :
    ∀ (f : Nat) (name : String) (i : List String) (p : Packages) (vis : List String)
      (out : Bool × List String × Packages × List String),
      installOrderedFuel reg res f name i p vis = some out → ∀ x ∈ vis, x ∈ out.2.2.2 := by
  intro f
  induction f with
  | zero =>
    intro name i p vis out h
    exact absurd h (by simp [installOrderedFuel])
  | succ f ih =>
    intro name i p vis out h
    rw [installOrderedFuel_succ] at h
    by_cases hp : (dget p name).isSome = true
    · rw [if_pos hp] at h
      cases Option.some.inj h
      exact fun x hx => hx
    · rw [if_neg hp] at h
      by_cases hv : name ∈ vis
      · rw [if_pos hv] at h
        cases Option.some.inj h
        exact fun x hx => hx
      · rw [if_neg hv] at h
        by_cases hr : (dget reg name).isNone = true
        · rw [if_pos hr] at h
          cases Option.some.inj h
          exact fun x hx => hx
        · rw [if_neg hr] at h
          have hsub : ∀ x ∈ vis, x ∈ vis ++ [name] :=
            fun x hx => List.mem_append_left _ hx
          rcases hres : dget res name with _ | version
          · simp only [hres] at h
            cases Option.some.inj h
            exact hsub
          · simp only [hres] at h
            rcases hreg2 : dget reg name with _ | entry
            · simp only [hreg2] at h
              cases Option.some.inj h
              exact hsub
            · simp only [hreg2] at h
              rcases hfold : installDeps
                  (fun d i' p' vis' => installOrderedFuel reg res f d i' p' vis')
                  (depsAt entry version) i p (vis ++ [name]) with _ | o₁
              · rw [hfold] at h
                exact absurd h (by simp)
              · rw [hfold] at h
                obtain ⟨b₁, i₁, p₁, vis₁⟩ := o₁
                have hfoldmono := installDeps_vis_mono_of _
                  (fun d i' p' vis' out' h' => ih d i' p' vis' out' h') _ _ _ _ _ hfold
                cases b₁
                · have h' : some ((false : Bool), i₁, p₁, vis₁) = some out := h
                  cases Option.some.inj h'
                  exact fun x hx => hfoldmono x (hsub x hx)
                · have h' : some ((true : Bool), i₁ ++ [name ++ "==" ++ version],
                      dset p₁ name version, vis₁) = some out := h
                  cases Option.some.inj h'
                  exact fun x hx => hfoldmono x (hsub x hx)

theorem filter_length_le_of {p q : String → Bool}
    (himp : ∀ x, p x = true → q x = true) :
    ∀ (l : List String), (l.filter p).length ≤ (l.filter q).length := by
  intro l
  induction l with
  | nil => exact Nat.le_refl _
  | cons x xs ih =>
    rw [List.filter_cons, List.filter_cons]
    cases hp : p x
    · rw [if_neg (by simp : ¬ ((false : Bool) = true))]
      cases hq : q x
      · rw [if_neg (by simp : ¬ ((false : Bool) = true))]
        exact ih
      · rw [if_pos rfl, List.length_cons]
        exact Nat.le_succ_of_le ih
    · rw [if_pos rfl, if_pos (himp x hp), List.length_cons, List.length_cons]
      exact Nat.succ_le_succ ih

theorem filter_length_lt_of {p q : String → Bool}
    (himp : ∀ x, p x = true → q x = true) {a : String} (hqa : q a = true)
    (hpa : p a = false) :
    ∀ (l : List String), a ∈ l → (l.filter p).length < (l.filter q).length := by
  intro l
  induction l with
  | nil =>
    intro ha
    simp at ha
  | cons x xs ih =>
    intro ha
    rw [List.filter_cons, List.filter_cons]
    rcases List.mem_cons.mp ha with rfl | ha'
    · rw [if_neg (by simp [hpa]), if_pos hqa, List.length_cons]
      exact Nat.lt_succ_of_le (filter_length_le_of himp xs)
    · cases hp : p x
      · rw [if_neg (by simp : ¬ ((false : Bool) = true))]
        cases hq : q x
        · rw [if_neg (by simp : ¬ ((false : Bool) = true))]
          exact ih ha'
        · rw [if_pos rfl, List.length_cons]
          exact Nat.lt_succ_of_lt (ih ha')
      · rw [if_pos rfl, if_pos (himp x hp), List.length_cons, List.length_cons]
        exact Nat.succ_lt_succ (ih ha')

theorem visMeasure_anti (reg : Registry) {vis vis' : List String}
    (h : ∀ x ∈ vis, x ∈ vis') : visMeasure reg vis' ≤ visMeasure reg vis := by
  unfold visMeasure
  apply filter_length_le_of
  intro x hx
  simp only [decide_eq_true_eq] at hx ⊢
  intro hmem
  exact hx (h x hmem)

theorem visMeasure_push_lt (reg : Registry) {vis : List String} {name : String}
    (hmem : name ∈ reg.map (·.1)) (hnot : name ∉ vis) :
    visMeasure reg (vis ++ [name]) < visMeasure reg vis := by
  unfold visMeasure
  refine filter_length_lt_of ?_ ?_ ?_ (reg.map (·.1)) hmem
  · intro x hx
    simp only [decide_eq_true_eq] at hx ⊢
    intro hm
    exact hx (List.mem_append_left _ hm)
  · simp only [decide_eq_true_eq]
    exact hnot
  · simp

theorem installDeps_term_of {reg : Registry} {res : Packages} (f : Nat)
    (hterm : ∀ (d : String) (i : List String) (p : Packages) (vis : List String),
      visMeasure reg vis < f → installOrderedFuel reg res f d i p vis ≠ none) :
    ∀ (ds : List (String × Option String)) (i : List String) (p : Packages)
      (vis : List String), visMeasure reg vis < f →
      installDeps (fun d i' p' vis' => installOrderedFuel reg res f d i' p' vis')
        ds i p vis ≠ none := by
  intro ds
  induction ds with
  | nil =>
    intro i p vis _
    rw [installDeps]
    simp
  | cons e₀ rest ih =>
    obtain ⟨d, dc⟩ := e₀
    intro i p vis hb
    rw [installDeps]
    rcases hs : installOrderedFuel reg res f d i p vis with _ | o₁
    · exact absurd hs (hterm d i p vis hb)
    · obtain ⟨b₁, i₁, p₁, vis₁⟩ := o₁
      cases b₁
      · simp
      · have hsub := installOrdered_vis_mono f d i p vis (true, i₁, p₁, vis₁) hs
        have hb₁ : visMeasure reg vis₁ < f :=
          Nat.lt_of_le_of_lt (visMeasure_anti reg (fun x hx => hsub x hx)) hb
        intro hcontra
        exact ih i₁ p₁ vis₁ hb₁ hcontra

/-- The ordered-install walk terminates: each recursive call adds a
registered name to the shared `visiting` set. -/
theorem installOrdered_term {reg : Registry} {res : Packages} :
    ∀ (f : Nat) (name : String) (i : List String) (p : Packages) (vis : List String),
      visMeasure reg vis < f → installOrderedFuel reg res f name i p vis ≠ none := by
  intro f
  induction f with
  | zero =>
    intro name i p vis hb
    exact absurd hb (Nat.not_lt_zero _)
  | succ f ih =>
    intro name i p vis hb
    rw [installOrderedFuel_succ]
    by_cases hp : (dget p name).isSome = true
    · rw [if_pos hp]
      simp
    · rw [if_neg hp]
      by_cases hv : name ∈ vis
      · rw [if_pos hv]
        simp
      · rw [if_neg hv]
        by_cases hr : (dget reg name).isNone = true
        · rw [if_pos hr]
          simp
        · rw [if_neg hr]
          rcases hres : dget res name with _ | version
          · simp [hres]
          · simp only [hres]
            rcases hreg2 : dget reg name with _ | entry
            · rw [hreg2] at hr
              exact absurd rfl hr
            · simp only [hreg2]
              have hmem : name ∈ reg.map (·.1) := by
                rw [← dget_isSome_iff, hreg2]
                rfl
              have hlt : visMeasure reg (vis ++ [name]) < f :=
                Nat.lt_of_lt_of_le (visMeasure_push_lt reg hmem hv)
                  (Nat.lt_succ_iff.mp hb)
              rcases hfold : installDeps
                  (fun d i' p' vis' => installOrderedFuel reg res f d i' p' vis')
                  (depsAt entry version) i p (vis ++ [name]) with _ | o₁
              · exact absurd hfold (installDeps_term_of f
                  (fun d i' p' vis' hb' => ih d i' p' vis' hb')
                  (depsAt entry version) i p (vis ++ [name]) hlt)
              · obtain ⟨b₁, i₁, p₁, vis₁⟩ := o₁
                cases b₁ <;> simp

/-! ### Closure: with truthy numeric edges, the resolved map is self-contained -/

theorem findCompatible_nil_cs {vsRev : List String} {v : String}
    (h : findCompatible vsRev [] = some (some v)) : vsRev.head? = some v := by
  cases vsRev with
  | nil => exact absurd h (by simp [findCompatible])
  | cons v₀ rest =>
    have h' : some (some v₀) = some (some v) := h
    cases Option.some.inj (Option.some.inj h')
    rfl

/-- On a registry with truthy numeric edges, every package of the
collected requirement map is registered, gets a resolved version when
there is no conflict, and that version's dependencies stay inside the
requirement map. -/
theorem closure_of_select {reg : Registry} {root : String} {c₀ : Option String}
    {fC : Nat} {req : Req} {res : Packages}
    (hreg : RegSorted reg) (hstrict : RegStrict reg) (hedges : EdgesOk reg)
    (hrt : RootTruthy c₀)
    (hc : collectFuel reg fC root c₀ [] "root" = some req)
    (hsel : selectVersions reg req [] [] = some ([], res)) :
    ∀ pkg, (dget req pkg).isSome = true →
      ∃ entry v, dget reg pkg = some entry ∧ dget res pkg = some v ∧
        ∀ e ∈ depsAt entry v, (dget req e.1).isSome = true := by
  have hInv : ReqInv (pairUniverse reg root c₀) req := collect_root_inv hrt hc
  have hUok : ∀ p ∈ pairUniverse reg root c₀, constrOk p.2 = true :=
    pairUniverse_constrOk hedges hrt
  intro pkg hp
  rcases hrows : dget req pkg with _ | rows
  · rw [hrows] at hp
    exact Bool.noConfusion hp
  · have hmem : (pkg, rows) ∈ req := mem_of_dget_eq_some hrows
    obtain ⟨entry, vfin, hdreg, hfc, hdres⟩ := selectVersions_resolved_spec hsel hInv.1 hmem
    refine ⟨entry, vfin, hdreg, hdres, ?_⟩
    have hnum : ∀ u ∈ entry.versions, numericVer u = true := by
      intro u hu
      exact List.all_eq_true.mp (hreg (pkg, entry) (mem_of_dget_eq_some hdreg)).2 u hu
    obtain ⟨hvmemR, hvsat⟩ := findCompatible_some_sat hfc
    have hvmem : vfin ∈ entry.versions := List.mem_reverse.mp hvmemR
    have hdone : DepsDone req entry vfin := by
      rcases htexts : rows.map (·.2) with _ | ⟨t₀, ts⟩
      · -- no recorded constraint: only the root with an absent constraint
        have htnil : textsOf req pkg = [] := by
          rw [textsOf, rowsOf, hrows]
          exact htexts
        have hKT : KeysTexts root req := by
          refine collect_KT hedges root fC root c₀ [] "root" req hc (Or.inr rfl) ?_
          intro pkg' hp'
          simp [dget] at hp'
        have hproot : pkg = root := by
          rcases hKT pkg hp with h | h
          · exact h
          · exact absurd htnil h
        subst hproot
        rcases c₀ with _ | c
        · rw [htexts] at hfc
          have hlast : entry.versions.getLast? = some vfin := by
            rw [← List.head?_reverse]
            exact findCompatible_nil_cs hfc
          have hie : ¬ (entry.versions.isEmpty = true) := by
            intro hemp
            cases hvv : entry.versions with
            | nil =>
              rw [hvv] at hvmem
              simp at hvmem
            | cons a as =>
              rw [hvv] at hemp
              simp [List.isEmpty] at hemp
          have hfv : find_version reg pkg none = some (some vfin) := by
            rw [find_version]
            simp only [hdreg]
            rw [if_neg hie]
            show some entry.versions.getLast? = some (some vfin)
            rw [hlast]
          exact collect_none_post hc entry hdreg vfin hfv
        · obtain ⟨hcne, _⟩ := hrt
          have hrec : c ∈ textsOf req pkg := collect_records hcne hc
          rw [htnil] at hrec
          simp at hrec
      · -- at least one recorded constraint: minimum-walked argument
        have htne : rows.map (·.2) ≠ [] := by
          rw [htexts]
          simp
        have hok : ∀ c ∈ rows.map (·.2), constrOk c = true := by
          intro c hcm
          obtain ⟨r, hr, rfl⟩ := List.mem_map.mp hcm
          exact hUok (pkg, r.2) (hInv.2.2 (mem_flatPairs.mpr ⟨(pkg, rows), hmem, r, hr, rfl⟩))
        have hsat : ∀ c ∈ rows.map (·.2), matches_constraint vfin c = some true :=
          satAll?_true_spec hvsat
        have hgreatest : ∀ u ∈ entry.versions,
            (∀ c ∈ rows.map (·.2), matches_constraint u c = some true) →
            tupLe (version_tuple u) (version_tuple vfin) = true := by
          intro u hu hsatu
          have hrev : entry.versions.reverse.Pairwise
              (fun x y => tupLe (version_tuple y) (version_tuple x) = true) := by
            rw [List.pairwise_reverse]
            exact (hreg (pkg, entry) (mem_of_dget_eq_some hdreg)).1
          exact findCompatible_greatest hfc hrev (List.mem_reverse.mpr hu)
            (satAll?_of_all hsatu)
        obtain ⟨cm, hcm, hfvm⟩ := min_walked hreg
          (hstrict (pkg, entry) (mem_of_dget_eq_some hdreg)) hdreg htne hok hvmem
          hsat hgreatest
        have hnew : cm ∉ textsOf ([] : Req) pkg := by
          simp [textsOf, rowsOf, dget]
        have hcmtexts : cm ∈ textsOf req pkg := by
          rw [textsOf, rowsOf, hrows]
          exact hcm
        exact collect_textsDone fC root c₀ [] "root" req hc pkg cm hcmtexts hnew entry
          hdreg vfin hfvm
    intro e he
    have heok : edgeOk e := by
      rw [depsAt] at he
      rcases hdd : dget entry.dependencies vfin with _ | ds'
      · rw [hdd] at he
        simp at he
      · rw [hdd] at he
        exact hedges (pkg, entry) (mem_of_dget_eq_some hdreg) (vfin, ds')
          (mem_of_dget_eq_some hdd) e (by simpa using he)
    rcases e with ⟨d, _ | s⟩
    · exact False.elim heok
    · obtain ⟨hsne, _⟩ := heok
      exact isSome_of_texts_mem (hdone (d, some s) he s rfl hsne)

/-- On a registry whose edges all carry non-empty numeric constraints,
whose version lists are strictly ascending, and whose root is
registered with an absent or non-empty numeric constraint: `install`
returns at some recursion depths, and every returning run with an
empty conflict list succeeds. -/
theorem install_truthy_ok (reg : Registry) (root : String) (c₀ : Option String)
    (pkgs : Packages) (hreg : RegSorted reg) (hstrict : RegStrict reg)
    (hedges : EdgesOk reg) (hrt : RootTruthy c₀)
    (hroot : (dget reg root).isSome = true) :
    (∃ fC fI r, install reg pkgs root c₀ fC fI = some r) ∧
    (∀ fC fI r, install reg pkgs root c₀ fC fI = some r →
      r.conflicts = [] → r.success = true) := by
  obtain ⟨entry₀, hentry₀⟩ : ∃ e, dget reg root = some e := by
    rcases hd : dget reg root with _ | e
    · rw [hd] at hroot
      exact Bool.noConfusion hroot
    · exact ⟨e, rfl⟩
  have hrook : RootOk c₀ := by
    rcases c₀ with _ | c
    · trivial
    · exact Or.inr hrt.2
  constructor
  · obtain ⟨fC, req, hcol⟩ := collect_root_terminates reg root c₀ hreg hedges hrook
    have hreqOk : ReqOk req :=
      reqOk_of_inv (collect_root_inv hrt hcol) (pairUniverse_constrOk hedges hrt)
    obtain ⟨⟨conflicts, resolved⟩, hselOut⟩ := selectVersions_total hreg req [] [] hreqOk
    refine ⟨fC, visMeasure reg [] + 1, ?_⟩
    simp only [install_known hentry₀, hcol, hselOut]
    by_cases hconf : conflicts.isEmpty = true
    · rw [if_pos hconf]
      rcases hio : installOrderedFuel reg resolved (visMeasure reg [] + 1) root [] pkgs []
          with _ | out
      · exact absurd hio (installOrdered_term (visMeasure reg [] + 1) root [] pkgs []
          (Nat.lt_succ_self _))
      · obtain ⟨succ, inst, p', vis'⟩ := out
        simp only [hio]
        exact ⟨_, rfl⟩
    · rw [if_neg hconf]
      exact ⟨_, rfl⟩
  · intro fC fI r hinst hconf
    rw [install_known hentry₀] at hinst
    rcases hcol : collectFuel reg fC root c₀ [] "root" with _ | req
    · rw [hcol] at hinst
      exact absurd hinst (by simp)
    · simp only [hcol] at hinst
      rcases hselOut : selectVersions reg req [] [] with _ | out
      · rw [hselOut] at hinst
        exact absurd hinst (by simp)
      · obtain ⟨conflicts, resolved⟩ := out
        simp only [hselOut] at hinst
        by_cases hempty : conflicts.isEmpty = true
        · rw [if_pos hempty] at hinst
          rcases hio : installOrderedFuel reg resolved fI root [] pkgs [] with _ | out
          · rw [hio] at hinst
            exact absurd hinst (by simp)
          · obtain ⟨succ, inst, p', vis'⟩ := out
            simp only [hio] at hinst
            have hr2 : (⟨succ, inst, [], p'⟩ : InstallResult) = r := Option.some.inj hinst
            cases hr2
            have hcnil : conflicts = [] := by
              cases conflicts with
              | nil => rfl
              | cons a as => simp [List.isEmpty] at hempty
            subst hcnil
            have hkey : (dget req root).isSome = true := collect_key hcol
            have hclosed := closure_of_select hreg hstrict hedges hrt hcol hselOut
            exact installOrdered_no_false hclosed fI root [] pkgs []
              (succ, inst, p', vis') hkey hio
        · rw [if_neg hempty] at hinst
          have hr2 : (⟨false, [], conflicts, pkgs⟩ : InstallResult) = r :=
            Option.some.inj hinst
          cases hr2
          have hcnil : conflicts = [] := hconf
          subst hcnil
          exact absurd rfl hempty

/-- C4 (amended): the unbounded recursion is caused exactly by the
constraint-less edges.  For every registry whose dependency edges all
carry non-empty numeric constraint strings — including any dependency
cycle — whose version lists are strictly ascending, and whose root is
registered with an absent or non-empty numeric constraint, `install`
terminates at some recursion depths, and every returning run whose
conflict list is empty (the satisfiable case) reports success.  The
spec's two-package cycle with `>=1.0.0` on both edges terminates and
resolves successfully rather than looping or erroring. -/
theorem c4_truthy_collection_terminates :
    (∀ (reg : Registry) (root : String) (c₀ : Option String) (pkgs : Packages),
      RegSorted reg → RegStrict reg → EdgesOk reg → RootTruthy c₀ →
      (dget reg root).isSome = true →
      (∃ fC fI r, install reg pkgs root c₀ fC fI = some r) ∧
      (∀ fC fI r, install reg pkgs root c₀ fC fI = some r →
        r.conflicts = [] → r.success = true)) ∧
    install cycleReg [] "a" none 10 10 =
      some ⟨true, ["b==1.0.0", "a==1.0.0"], [], [("b", "1.0.0"), ("a", "1.0.0")]⟩ :=
  ⟨fun reg root c₀ pkgs hreg hstrict hedges hrt hroot =>
      install_truthy_ok reg root c₀ pkgs hreg hstrict hedges hrt hroot,
    by decide⟩

/-- C4, witness. -/
theorem c4_witness :
    (RegSorted cycleReg ∧ RegStrict cycleReg ∧ EdgesOk cycleReg ∧
      (dget cycleReg "a").isSome = true) ∧
    ((∃ fC fI r, install cycleReg [] "a" none fC fI = some r) ∧
      (∀ fC fI r, install cycleReg [] "a" none fC fI = some r →
        r.conflicts = [] → r.success = true)) :=
  ⟨⟨by decide, by decide, by decide, by decide⟩,
    c4_truthy_collection_terminates.1 cycleReg "a" none [] (by decide) (by decide)
      (by decide) trivial (by decide)⟩

end PkgMgr
